import Mathlib

/-!
Shallow embedding of the extended yard sale simulation
(`src/extended_yard_sale/helper.py`).

Modelling conventions:
* Python float arithmetic is idealised as exact rational arithmetic (`ℚ`);
  numpy's `.round(2)` is `round2` (round half to even at two decimals) and the
  tax truncation `(tax // 0.01) / 100` is `trunc2` (floor at two decimals).
* A Python `dict` is an insertion-ordered association list with unique keys
  (`WealthMap`); dict comprehensions become `List.filter` / `List.map`, and
  `{**rich, **poor}` becomes `rich ++ poor` (the key sets are disjoint).
* All randomness of the engine flows through one sequentially consumed seeded
  generator.  Python's `random` module is library code that is not part of the
  repository; it is modelled from the spec as a deterministic seeded stream
  (`rngNext`), with `random.sample` as a draw-without-replacement permutation
  (`sample`) and the weighted draw of `random.choices` as `weighted_choice`.
-/

namespace YardSale

abbrev Person := Nat

/-- Insertion-ordered wealth dictionary: agent identity paired with balance. -/
abbrev WealthMap := List (Person × ℚ)

def keys (w : WealthMap) : List Person := w.map Prod.fst

def values (w : WealthMap) : List ℚ := w.map Prod.snd

def totalWealth (w : WealthMap) : ℚ := (values w).sum

def nPeople (w : WealthMap) : ℕ := w.length

/-- `np.mean(list(self.wealth.values()))`. -/
def avgWealth (w : WealthMap) : ℚ := totalWealth w / (nPeople w : ℚ)

/-- Dictionary access `self.wealth[k]` (first matching key). -/
def lookup? (k : Person) : WealthMap → Option ℚ
  | [] => none
  | pw :: rest => if pw.1 = k then some pw.2 else lookup? k rest

def lookupW (w : WealthMap) (k : Person) : ℚ := (lookup? k w).getD 0

/-- Round half to even to an integer, as numpy's rounding does. -/
def rhe (x : ℚ) : ℤ :=
  let f : ℤ := ⌊x⌋
  let frac := x - (f : ℚ)
  if frac < 1/2 then f
  else if 1/2 < frac then f + 1
  else if f % 2 = 0 then f else f + 1

/-- `np.round(x, 2)`: round half to even at two decimals. -/
def round2 (x : ℚ) : ℚ := ((rhe (100 * x) : ℤ) : ℚ) / 100

/-- `(x // 0.01) / 100`: truncate down to the nearest 0.01. -/
def trunc2 (x : ℚ) : ℚ := ((⌊100 * x⌋ : ℤ) : ℚ) / 100

/-! ### The `Wealth` ledger analytics -/

/-- `np.sort` of the balances (`Wealth.sort_wealth`). -/
def sort_wealth (w : WealthMap) : List ℚ := (values w).insertionSort (· ≤ ·)

/-- `Wealth.calc_gini`: rank-weighted Gini coefficient over sorted balances. -/
def calc_gini (w : WealthMap) : ℚ :=
  let sorted := sort_wealth w
  let n : ℚ := (nPeople w : ℚ)
  let coef := 2 / n
  let const := (n + 1) / n
  let weighted_sum := (sorted.enum.map (fun p => ((p.1 : ℚ) + 1) * p.2)).sum
  coef * weighted_sum / sorted.sum - const

/-- `np.cumsum`. -/
def cumsum : List ℚ → List ℚ
  | [] => []
  | x :: xs => x :: (cumsum xs).map (fun c => x + c)

/-- The Lorenz-curve coordinates computed by `Wealth.plot_lorenz_curve`:
`y` is the cumulative share with a prepended 0, `x` is `i / (size - 1)`. -/
def lorenz_points (w : WealthMap) : List (ℚ × ℚ) :=
  let sorted := sort_wealth w
  let ys := (0 : ℚ) :: (cumsum sorted).map (fun c => c / sorted.sum)
  ys.enum.map (fun p => ((p.1 : ℚ) / ((ys.length : ℚ) - 1), p.2))

/-! ### The engine's per-round phases -/

structure Params where
  win_percentage : ℚ
  chi : ℚ
  zeta : ℚ
  kappa : ℚ
deriving DecidableEq

/-- The `rich` comprehension of `_pay_tax`: balance strictly above average. -/
def richOf (avg : ℚ) (w : WealthMap) : WealthMap :=
  w.filter (fun pw => decide (avg < pw.2))

/-- The `poor` comprehension of `_pay_tax`: balance at or below average. -/
def poorOf (avg : ℚ) (w : WealthMap) : WealthMap :=
  w.filter (fun pw => decide (pw.2 ≤ avg))

/-- `ExtendedYardSale._pay_tax`, with the round's `_avg_wealth` passed in. -/
def pay_tax (chi avg : ℚ) (w : WealthMap) : WealthMap :=
  let rich := richOf avg w
  let poor := poorOf avg w
  let tax := trunc2 (chi * (values rich).sum)
  let poor2 := if 0 < poor.length
    then poor.map (fun pw => (pw.1, round2 (pw.2 + tax / (poor.length : ℚ))))
    else poor
  let rich2 := if 0 < rich.length
    then rich.map (fun pw => (pw.1, round2 (pw.2 - pw.2 * chi)))
    else rich
  rich2 ++ poor2

/-- `ExtendedYardSale._loan_S`. -/
def loan_S (kappa avg : ℚ) (w : WealthMap) : WealthMap :=
  w.map (fun pw => (pw.1, round2 (pw.2 + kappa * avg)))

/-- `ExtendedYardSale._collect_S`. -/
def collect_S (kappa avg : ℚ) (w : WealthMap) : WealthMap :=
  w.map (fun pw => (pw.1, round2 (pw.2 - kappa * avg)))

/-- `reshape(-1, 2)`: chunk a permutation into adjacent pairs. -/
def chunk2 : List Person → List (Person × Person)
  | a :: b :: rest => (a, b) :: chunk2 rest
  | _ => []

def flattenPairs (l : List (Person × Person)) : List Person :=
  (l.map (fun ab => [ab.1, ab.2])).flatten

/-- `ExtendedYardSale._pair_people`, with the sampled permutation passed in:
each pair keeps the two agents in permutation order with their balances. -/
def pair_people (w : WealthMap) (perm : List Person) :
    List ((Person × ℚ) × (Person × ℚ)) :=
  (chunk2 perm).map (fun ab => ((ab.1, lookupW w ab.1), (ab.2, lookupW w ab.2)))

/-- The outcome weights of `_roll_dice` for one pair. -/
def dice_weights (zeta v0 v1 : ℚ) : ℚ × ℚ :=
  let bias := zeta * |v0 - v1|
  ((1/2 + bias) / (1 + bias), (1/2) / (1 + bias))

/-- One pair's settlement inside `_exchange_wealth`.  `min/max(pair, key=pair.get)`
picks the smaller/larger balance; equal balances are pre-branched so that the
first-listed agent is the poor one. -/
def settle_pair (wp : ℚ) (pair : (Person × ℚ) × (Person × ℚ)) (roll : ℤ) :
    List (Person × ℚ) :=
  let v0 := pair.1.2
  let v1 := pair.2.2
  let exchange_amount := min v0 v1 * wp
  let pr := if v0 = v1 then (pair.1, pair.2)
    else if v0 < v1 then (pair.1, pair.2) else (pair.2, pair.1)
  [(pr.1.1, round2 (pr.1.2 + (2 * (roll : ℚ) - 1) * exchange_amount)),
   (pr.2.1, round2 (pr.2.2 + (1 - 2 * (roll : ℚ)) * exchange_amount))]

/-- `ExtendedYardSale._exchange_wealth`: the wealth dict is rebuilt from the
pair settlements (`zip` truncates to the shorter list, as in Python). -/
def exchange_wealth (wp : ℚ) (pairs : List ((Person × ℚ) × (Person × ℚ)))
    (rolls : List ℤ) : WealthMap :=
  ((pairs.zip rolls).map (fun pr => settle_pair wp pr.1 pr.2)).flatten

/-- The wealth dict at pairing time: tax then loan, both using the round's
starting average. -/
def preExchange (P : Params) (w : WealthMap) : WealthMap :=
  loan_S P.kappa (avgWealth w) (pay_tax P.chi (avgWealth w) w)

/-- `ExtendedYardSale.perform_sale` with the round's random draws (the sampled
permutation and the dice rolls) passed in explicitly. -/
def perform_sale (P : Params) (perm : List Person) (rolls : List ℤ)
    (w : WealthMap) : WealthMap :=
  let avg := avgWealth w
  let w2 := preExchange P w
  let pairs := pair_people w2 perm
  collect_S P.kappa avg (exchange_wealth P.win_percentage pairs rolls)

/-! ### The seeded generator

Modelled from the spec: Python's `random` module (library code, not under
`src/`) is "one seeded generator instance owned by the engine", consumed
sequentially — first the pairing permutation, then one weighted draw per pair.
It is modelled as a deterministic 64-bit congruential stream. -/

def rngNext (s : Nat) : Nat × Nat :=
  let s2 := (6364136223846793005 * s + 1442695040888963407) % 18446744073709551616
  (s2 / 4294967296, s2)

/-- Modelled from the spec: `random.sample(people, n)` — a uniform draw without
replacement, here realised as repeated indexed removal driven by the stream. -/
def sampleAux : Nat → List Person → Nat → List Person × Nat
  | 0, _, s => ([], s)
  | n + 1, pool, s =>
    let vs := rngNext s
    let i := vs.1 % pool.length
    let rest := sampleAux n (pool.eraseIdx i) vs.2
    (pool.getD i 0 :: rest.1, rest.2)

def sample (pool : List Person) (s : Nat) : List Person × Nat :=
  sampleAux pool.length pool s

/-- Modelled from the spec: `random.choices([0, 1], weights)` — one weighted
draw over the outcomes `{0, 1}` from the stream. -/
def weighted_choice (w0 w1 : ℚ) (s : Nat) : ℤ × Nat :=
  let vs := rngNext s
  (if ((vs.1 % 1024 : ℕ) : ℚ) / 1024 * (w0 + w1) < w0 then 0 else 1, vs.2)

/-- `ExtendedYardSale._roll_dice`: one biased draw per pair, in pair order. -/
def roll_dice (zeta : ℚ) : List ((Person × ℚ) × (Person × ℚ)) → Nat → List ℤ × Nat
  | [], s => ([], s)
  | p :: rest, s =>
    let ws := dice_weights zeta p.1.2 p.2.2
    let rs := weighted_choice ws.1 ws.2 s
    let rest2 := roll_dice zeta rest rs.2
    (rs.1 :: rest2.1, rest2.2)

/-- `ExtendedYardSale.perform_sale` on engine state (wealth, generator state). -/
def perform_sale_seeded (P : Params) (e : WealthMap × Nat) : WealthMap × Nat :=
  let w2 := preExchange P e.1
  let ps := sample (keys w2) e.2
  let pairs := pair_people w2 ps.1
  let rs := roll_dice P.zeta pairs ps.2
  (perform_sale P ps.1 rs.1 e.1, rs.2)

/-! ### The multi-round driver `run_yard_sale` -/

structure RunResult where
  error : Option String
  returned : Option (List (ℕ × WealthMap))
  final : WealthMap × Nat
deriving DecidableEq

/-- The `for i in range(1, n+1)` loop of `run_yard_sale`: `r` rounds remain and
`i` is the 1-based index of the next round. -/
def runLoop (P : Params) (plot_n : ℕ) (plot : Bool) :
    ℕ → ℕ → (WealthMap × Nat) → List (ℕ × WealthMap) × (WealthMap × Nat)
  | 0, _, e => ([], e)
  | r + 1, i, e =>
    let e2 := perform_sale_seeded P e
    let rest := runLoop P plot_n plot r (i + 1) e2
    (if plot ∧ i % plot_n = 0 then (i, e2.1) :: rest.1 else rest.1, rest.2)

/-- `ExtendedYardSale.run_yard_sale`: configuration check, then `n` rounds with
snapshots at every multiple of `plot_n`; the collected dict is returned only
when `plot` is set (Python returns `None` otherwise). -/
def run_yard_sale (P : Params) (n : ℕ) (e : WealthMap × Nat) (plot_n : ℕ)
    (plot : Bool) : RunResult :=
  if plot ∧ n < plot_n then
    ⟨some "plot_n needs to be lower than n", none, e⟩
  else
    let res := runLoop P plot_n plot n 1 e
    ⟨none, if plot then some res.1 else none, res.2⟩

/-! ### Basic rounding lemmas -/

theorem rhe_abs_le (y : ℚ) : |((rhe y : ℤ) : ℚ) - y| ≤ 1/2 := by
  unfold rhe
  have hfl : ((⌊y⌋ : ℤ) : ℚ) ≤ y := Int.floor_le y
  have hfu : y < ((⌊y⌋ : ℤ) : ℚ) + 1 := Int.lt_floor_add_one y
  by_cases h1 : y - ((⌊y⌋ : ℤ) : ℚ) < 1/2
  · simp only [h1, if_true]
    rw [abs_le]
    constructor <;> linarith
  · simp only [h1, if_false]
    by_cases h2 : (1:ℚ)/2 < y - ((⌊y⌋ : ℤ) : ℚ)
    · simp only [h2, if_true]
      rw [abs_le]
      push_cast
      constructor <;> linarith
    · simp only [h2, if_false]
      have heq : y - ((⌊y⌋ : ℤ) : ℚ) = 1/2 := le_antisymm (not_lt.mp h2) (not_lt.mp h1)
      by_cases h3 : ⌊y⌋ % 2 = 0
      · simp only [h3, if_true]
        rw [abs_le]
        constructor <;> linarith
      · simp only [h3, if_false]
        rw [abs_le]
        push_cast
        constructor <;> linarith

theorem round2_abs_le (x : ℚ) : |round2 x - x| ≤ 1/200 := by
  have hrw : round2 x - x = (((rhe (100 * x) : ℤ) : ℚ) - 100 * x) / 100 := by
    unfold round2
    ring
  rw [hrw, abs_div, abs_of_pos (show (0:ℚ) < 100 by norm_num)]
  have h := rhe_abs_le (100 * x)
  rw [div_le_div_iff (by norm_num) (by norm_num)]
  linarith

theorem rhe_intCast (m : ℤ) : rhe ((m : ℚ)) = m := by
  unfold rhe
  rw [Int.floor_intCast]
  norm_num

theorem round2_intCast (m : ℤ) : round2 ((m : ℚ)) = (m : ℚ) := by
  unfold round2
  rw [show (100 : ℚ) * (m : ℚ) = ((100 * m : ℤ) : ℚ) by push_cast; ring, rhe_intCast]
  push_cast
  ring

theorem round2_round2 (x : ℚ) : round2 (round2 x) = round2 x := by
  conv_lhs => unfold round2
  rw [show (100 : ℚ) * (((rhe (100 * x) : ℤ) : ℚ) / 100) = ((rhe (100 * x) : ℤ) : ℚ) by ring,
    rhe_intCast]
  rfl

theorem trunc2_le (x : ℚ) : trunc2 x ≤ x := by
  unfold trunc2
  rw [div_le_iff (by norm_num : (0:ℚ) < 100)]
  calc ((⌊100 * x⌋ : ℤ) : ℚ) ≤ 100 * x := Int.floor_le _
  _ = x * 100 := by ring

theorem lt_trunc2_add (x : ℚ) : x - 1/100 < trunc2 x := by
  unfold trunc2
  have h := Int.lt_floor_add_one (100 * x)
  rw [lt_div_iff (by norm_num : (0:ℚ) < 100)]
  linarith

/-! ### C10 — dice-roll weights are a well-defined distribution -/

/-- C10: for every pair and every `zeta ≥ 0`, the two outcome weights of
`_roll_dice` are strictly positive and sum exactly to 1, so the weighted draw
over `{0, 1}` is always well defined. -/
theorem C10_dice_weights_well_defined (zeta v0 v1 : ℚ) (h : 0 ≤ zeta) :
    0 < (dice_weights zeta v0 v1).1 ∧ 0 < (dice_weights zeta v0 v1).2 ∧
      (dice_weights zeta v0 v1).1 + (dice_weights zeta v0 v1).2 = 1 := by
  unfold dice_weights
  have hb : 0 ≤ zeta * |v0 - v1| := mul_nonneg h (abs_nonneg _)
  have h1 : (0:ℚ) < 1 + zeta * |v0 - v1| := by linarith
  refine ⟨div_pos (by linarith) h1, div_pos (by norm_num) h1, ?_⟩
  field_simp
  ring

theorem C10_witness :
    (0 : ℚ) ≤ 1 ∧
      (0 < (dice_weights 1 3 5).1 ∧ 0 < (dice_weights 1 3 5).2 ∧
        (dice_weights 1 3 5).1 + (dice_weights 1 3 5).2 = 1) :=
  ⟨by norm_num, C10_dice_weights_well_defined 1 3 5 (by norm_num)⟩

/-! ### C1 — determinism of a run -/

/-- C1: two engines constructed from the same initial wealth mapping, the same
parameters and the same seed produce identical wealth mappings after every
number of rounds.  All state, including the generator, lives in the engine
pair, so the round trajectory is a pure function of the constructor inputs. -/
theorem C1_determinism (P Q : Params) (w v : WealthMap) (s t : Nat)
    (hP : P = Q) (hw : w = v) (hs : s = t) (k : ℕ) :
    ((perform_sale_seeded P)^[k] (w, s)).1 = ((perform_sale_seeded Q)^[k] (v, t)).1 := by
  subst hP
  subst hw
  subst hs
  rfl

theorem C1_witness :
    (⟨1/2, 0, 0, 0⟩ : Params) = ⟨1/2, 0, 0, 0⟩ ∧
      ([(0, 100), (1, 100)] : WealthMap) = [(0, 100), (1, 100)] ∧ (7 : ℕ) = 7 ∧
      ((perform_sale_seeded ⟨1/2, 0, 0, 0⟩)^[3] ([(0, 100), (1, 100)], 7)).1 =
        ((perform_sale_seeded ⟨1/2, 0, 0, 0⟩)^[3] ([(0, 100), (1, 100)], 7)).1 :=
  ⟨rfl, rfl, rfl,
    C1_determinism ⟨1/2, 0, 0, 0⟩ ⟨1/2, 0, 0, 0⟩ [(0, 100), (1, 100)]
      [(0, 100), (1, 100)] 7 7 rfl rfl rfl 3⟩

/-! ### C4 — exchange settlement -/

/-- C4: for every pair, `exchange_amount = min(pair balances) × win_percentage`;
the poorer agent's new balance is `old + (2·roll − 1) × exchange_amount` and the
richer agent's is `old − (2·roll − 1) × exchange_amount`, both rounded to two
decimals; on exactly equal balances the first-listed agent is the poor one. -/
theorem C4_exchange_settlement (wp va vb : ℚ) (a b : Person) (roll : ℤ) :
    settle_pair wp ((a, va), (b, vb)) roll =
      if va ≤ vb then
        [(a, round2 (va + (2 * (roll : ℚ) - 1) * (min va vb * wp))),
         (b, round2 (vb - (2 * (roll : ℚ) - 1) * (min va vb * wp)))]
      else
        [(b, round2 (vb + (2 * (roll : ℚ) - 1) * (min va vb * wp))),
         (a, round2 (va - (2 * (roll : ℚ) - 1) * (min va vb * wp)))] := by
  have hring : ∀ c x : ℚ, c + (1 - 2 * (roll : ℚ)) * x = c - (2 * (roll : ℚ) - 1) * x := by
    intro c x
    ring
  rcases lt_trichotomy va vb with h | h | h
  · simp only [settle_pair, if_neg (ne_of_lt h), if_pos h, if_pos (le_of_lt h)]
    simp only [hring]
  · simp only [settle_pair, if_pos h, if_pos (le_of_eq h)]
    simp only [hring]
  · simp only [settle_pair, if_neg (ne_of_gt h), if_neg (not_lt.mpr (le_of_lt h)),
      if_neg (not_le.mpr h)]
    simp only [hring]

/-! ### C6 — configuration error in the multi-round driver -/

/-- C6: `run_yard_sale` fails if and only if snapshots are requested and the
snapshot interval exceeds the total round count; in that case the error is
raised before any round executes, so no snapshots exist and the engine state
(in particular the wealth mapping) is unchanged. -/
theorem C6_run_configuration_error (P : Params) (n plot_n : ℕ) (e : WealthMap × Nat)
    (plot : Bool) :
    ((run_yard_sale P n e plot_n plot).error.isSome = true ↔ plot = true ∧ n < plot_n) ∧
      (plot = true ∧ n < plot_n →
        run_yard_sale P n e plot_n plot =
          ⟨some "plot_n needs to be lower than n", none, e⟩) := by
  constructor
  · by_cases h : plot = true ∧ n < plot_n
    · simp [run_yard_sale, h]
    · simp [run_yard_sale, h]
  · intro h
    simp [run_yard_sale, h]

theorem C6_witness :
    (true = true ∧ 10 < 20) ∧
      run_yard_sale ⟨1/2, 0, 0, 0⟩ 10 ([(0, 100), (1, 100)], 0) 20 true =
        ⟨some "plot_n needs to be lower than n", none, ([(0, 100), (1, 100)], 0)⟩ :=
  ⟨⟨rfl, by norm_num⟩,
    (C6_run_configuration_error ⟨1/2, 0, 0, 0⟩ 10 20 ([(0, 100), (1, 100)], 0) true).2
      ⟨rfl, by norm_num⟩⟩

/-! ### C7 — snapshot contract of the multi-round driver -/

theorem runLoop_eq (P : Params) (pn : ℕ) (plot : Bool) :
    ∀ (r i : ℕ) (e : WealthMap × Nat),
      runLoop P pn plot r i e =
        ((List.range r).filterMap (fun j =>
            if plot ∧ (i + j) % pn = 0
            then some (i + j, ((perform_sale_seeded P)^[j + 1] e).1) else none),
          (perform_sale_seeded P)^[r] e)
  | 0, i, e => by
    simp [runLoop]
  | r + 1, i, e => by
    have IH := runLoop_eq P pn plot r (i + 1) (perform_sale_seeded P e)
    have hfun : ∀ j : ℕ,
        (if plot ∧ (i + 1 + j) % pn = 0
          then some (i + 1 + j, ((perform_sale_seeded P)^[j + 1] (perform_sale_seeded P e)).1)
          else none)
          = (if plot ∧ (i + Nat.succ j) % pn = 0
              then some (i + Nat.succ j, ((perform_sale_seeded P)^[Nat.succ j + 1] e).1)
              else none) := by
      intro j
      have h1 : i + 1 + j = i + Nat.succ j := by omega
      have h2 : ((perform_sale_seeded P)^[Nat.succ j + 1] e) =
          ((perform_sale_seeded P)^[j + 1] (perform_sale_seeded P e)) := by
        rw [show Nat.succ j + 1 = Nat.succ (j + 1) by omega]
        exact Function.iterate_succ_apply _ _ _
      rw [h1, h2]
    simp only [runLoop, IH]
    rw [List.range_succ_eq_map, List.filterMap_cons, List.filterMap_map]
    have hcomp : ((fun j =>
        if plot ∧ (i + j) % pn = 0
        then some (i + j, ((perform_sale_seeded P)^[j + 1] e).1) else none) ∘ Nat.succ)
        = (fun j =>
            if plot ∧ (i + Nat.succ j) % pn = 0
            then some (i + Nat.succ j, ((perform_sale_seeded P)^[Nat.succ j + 1] e).1)
            else none) := by
      funext j
      rfl
    rw [hcomp]
    by_cases hc : plot = true ∧ i % pn = 0
    · have hc0 : (plot = true ∧ (i + 0) % pn = 0) := by simpa using hc
      simp only [if_pos hc, if_pos hc0, Nat.add_zero, Nat.zero_add, Function.iterate_one,
        Prod.mk.injEq]
      refine ⟨?_, ?_⟩
      · rw [List.filterMap_congr (fun j _ => hfun j)]
      · rw [show r + 1 = Nat.succ r from rfl, Function.iterate_succ_apply]
    · have hc0 : ¬ (plot = true ∧ (i + 0) % pn = 0) := by simpa using hc
      simp only [if_neg hc, if_neg hc0, Prod.mk.injEq]
      refine ⟨?_, ?_⟩
      · rw [List.filterMap_congr (fun j _ => hfun j)]
      · rw [show r + 1 = Nat.succ r from rfl, Function.iterate_succ_apply]

/-- C7: on a successful snapshot-collecting run of `n` rounds the returned
history holds exactly one copy of the wealth mapping for every 1-based round
index that is a multiple of the snapshot interval, keyed by that index and
equal to the wealth mapping after that round; with snapshots disabled no
history is returned. -/
theorem C7_snapshot_contract (P : Params) (e : WealthMap × Nat) (n pn : ℕ)
    (_h0 : 0 < pn) (hle : pn ≤ n) :
    (run_yard_sale P n e pn true).returned =
      some (((List.range n).map (· + 1)).filterMap (fun i =>
        if i % pn = 0 then some (i, ((perform_sale_seeded P)^[i] e).1) else none)) ∧
    (run_yard_sale P n e pn false).returned = none := by
  constructor
  · have hnlt : ¬ n < pn := Nat.not_lt.mpr hle
    simp only [run_yard_sale, runLoop_eq, hnlt, and_false, if_false, if_true,
      List.filterMap_map, eq_self_iff_true, true_and]
    refine congrArg some (List.filterMap_congr ?_)
    intro j _
    simp only [Function.comp_apply]
    rw [Nat.add_comm 1 j]
  · simp [run_yard_sale]

theorem C7_witness :
    (0 < 1 ∧ 1 ≤ 2) ∧
      ((run_yard_sale ⟨1/2, 0, 0, 0⟩ 2 ([(0, 100), (1, 100)], 0) 1 true).returned =
        some (((List.range 2).map (· + 1)).filterMap (fun i =>
          if i % 1 = 0
          then some (i, ((perform_sale_seeded (⟨1/2, 0, 0, 0⟩ : Params))^[i]
            ([(0, 100), (1, 100)], 0)).1)
          else none)) ∧
      (run_yard_sale ⟨1/2, 0, 0, 0⟩ 2 ([(0, 100), (1, 100)], 0) 1 false).returned = none) :=
  ⟨⟨by norm_num, by norm_num⟩,
    C7_snapshot_contract ⟨1/2, 0, 0, 0⟩ ([(0, 100), (1, 100)], 0) 2 1
      (by norm_num) (by norm_num)⟩

/-! ### Permutation and key-set lemmas -/

theorem getElem_cons_eraseIdx_perm (l : List Person) (i : ℕ) (h : i < l.length) :
    (l[i] :: l.eraseIdx i).Perm l := by
  rw [List.eraseIdx_eq_take_drop_succ]
  calc (l[i] :: (l.take i ++ l.drop (i + 1))).Perm (l.take i ++ l[i] :: l.drop (i + 1)) :=
        List.perm_middle.symm
  _ = l := by rw [List.getElem_cons_drop, List.take_append_drop]

theorem sampleAux_perm : ∀ (n : ℕ) (pool : List Person) (s : Nat), n = pool.length →
    ((sampleAux n pool s).1).Perm pool
  | 0, pool, _, h => by
    rw [List.length_eq_zero.mp h.symm]
    simp [sampleAux]
  | n + 1, pool, s, h => by
    have hpos : 0 < pool.length := by omega
    have hi : (rngNext s).1 % pool.length < pool.length := Nat.mod_lt _ hpos
    have hlen : n = (pool.eraseIdx ((rngNext s).1 % pool.length)).length := by
      rw [List.length_eraseIdx, if_pos hi]
      omega
    have IH := sampleAux_perm n (pool.eraseIdx ((rngNext s).1 % pool.length)) (rngNext s).2 hlen
    simp only [sampleAux]
    rw [List.getD_eq_getElem pool 0 hi]
    exact (IH.cons _).trans (getElem_cons_eraseIdx_perm pool _ hi)

theorem sample_perm (pool : List Person) (s : Nat) : ((sample pool s).1).Perm pool :=
  sampleAux_perm pool.length pool s rfl

theorem roll_dice_length (zeta : ℚ) :
    ∀ (pairs : List ((Person × ℚ) × (Person × ℚ))) (s : Nat),
      (roll_dice zeta pairs s).1.length = pairs.length
  | [], _ => rfl
  | p :: rest, s => by
    simp [roll_dice, roll_dice_length zeta rest]

theorem chunk2_flatten : ∀ (l : List Person), l.length % 2 = 0 → flattenPairs (chunk2 l) = l
  | [], _ => rfl
  | [a], h => by simp at h
  | a :: b :: rest, h => by
    have hr : rest.length % 2 = 0 := by
      simp only [List.length_cons] at h
      omega
    simp [chunk2, flattenPairs, List.flatten] at chunk2_flatten rest hr ⊢
    exact chunk2_flatten rest hr

theorem chunk2_length : ∀ (l : List Person), (chunk2 l).length = l.length / 2
  | [] => rfl
  | [_] => by simp [chunk2]
  | a :: b :: rest => by
    simp only [chunk2, List.length_cons, chunk2_length rest]
    omega

theorem keys_append (l₁ l₂ : WealthMap) : keys (l₁ ++ l₂) = keys l₁ ++ keys l₂ :=
  List.map_append _ _ _

theorem keys_mapSnd (f : Person × ℚ → ℚ) (l : WealthMap) :
    keys (l.map (fun pw => (pw.1, f pw))) = keys l := by
  unfold keys
  rw [List.map_map]
  rfl

theorem richOf_poorOf_perm (avg : ℚ) (w : WealthMap) :
    (richOf avg w ++ poorOf avg w).Perm w := by
  have h : poorOf avg w = w.filter (fun pw => !(decide (avg < pw.2))) := by
    unfold poorOf
    congr 1
    funext pw
    by_cases hlt : avg < pw.2
    · simp [hlt, not_le.mpr hlt]
    · simp [hlt, not_lt.mp hlt]
  rw [h]
  exact List.filter_append_perm _ w

theorem keys_pay_tax_perm (chi avg : ℚ) (w : WealthMap) :
    (keys (pay_tax chi avg w)).Perm (keys w) := by
  unfold pay_tax
  have hrich : ∀ l : WealthMap, keys (if 0 < l.length
      then l.map (fun pw => (pw.1, round2 (pw.2 - pw.2 * chi))) else l) = keys l := by
    intro l
    by_cases h : 0 < l.length
    · rw [if_pos h, keys_mapSnd]
    · rw [if_neg h]
  have hpoor : ∀ (l : WealthMap) (t : ℚ), keys (if 0 < l.length
      then l.map (fun pw => (pw.1, round2 (pw.2 + t / (l.length : ℚ)))) else l) = keys l := by
    intro l t
    by_cases h : 0 < l.length
    · rw [if_pos h, keys_mapSnd]
    · rw [if_neg h]
  rw [keys_append, hrich, hpoor]
  rw [← keys_append]
  exact (richOf_poorOf_perm avg w).map Prod.fst

theorem keys_loan (kappa avg : ℚ) (w : WealthMap) : keys (loan_S kappa avg w) = keys w :=
  keys_mapSnd _ w

theorem keys_collect (kappa avg : ℚ) (w : WealthMap) : keys (collect_S kappa avg w) = keys w :=
  keys_mapSnd _ w

theorem keys_preExchange_perm (P : Params) (w : WealthMap) :
    (keys (preExchange P w)).Perm (keys w) := by
  unfold preExchange
  rw [keys_loan]
  exact keys_pay_tax_perm _ _ w

theorem keys_settle_perm (wp : ℚ) (pair : (Person × ℚ) × (Person × ℚ)) (roll : ℤ) :
    (keys (settle_pair wp pair roll)).Perm [pair.1.1, pair.2.1] := by
  by_cases h1 : pair.1.2 = pair.2.2
  · simp [settle_pair, h1, keys]
  · by_cases h2 : pair.1.2 < pair.2.2
    · simp [settle_pair, h1, h2, keys]
    · simp only [settle_pair, if_neg h1, if_neg h2, keys, List.map_cons, List.map_nil]
      exact List.Perm.swap _ _ _

theorem keys_exchange_perm (wp : ℚ) :
    ∀ (pairs : List ((Person × ℚ) × (Person × ℚ))) (rolls : List ℤ),
      rolls.length = pairs.length →
      (keys (exchange_wealth wp pairs rolls)).Perm
        (flattenPairs (pairs.map (fun pr => (pr.1.1, pr.2.1))))
  | [], rolls, _ => by
    simp [exchange_wealth, flattenPairs, keys]
  | p :: rest, [], h => by
    simp at h
  | p :: rest, r :: rs, h => by
    have hlen : rs.length = rest.length := by simpa using h
    have IH := keys_exchange_perm wp rest rs hlen
    have hflat : flattenPairs (((p :: rest)).map (fun pr => (pr.1.1, pr.2.1)))
        = p.1.1 :: p.2.1 :: flattenPairs (rest.map (fun pr => (pr.1.1, pr.2.1))) := by
      simp [flattenPairs]
    rw [hflat]
    have hexp : exchange_wealth wp (p :: rest) (r :: rs)
        = settle_pair wp p r ++ exchange_wealth wp rest rs := by
      simp [exchange_wealth]
    rw [hexp, keys_append]
    exact ((keys_settle_perm wp p r).append IH).trans (by rfl)

theorem pair_people_ids (w : WealthMap) (perm : List Person) :
    (pair_people w perm).map (fun pr => (pr.1.1, pr.2.1)) = chunk2 perm := by
  unfold pair_people
  rw [List.map_map]
  exact List.map_id'' (fun x => rfl) (chunk2 perm)

/-! ### C5 — the round pairing is a perfect matching; the agent set is invariant -/

/-- C5: with a positive, even, duplicate-free agent population, the round's
pairing chunks the sampled permutation into disjoint pairs whose flattening is
a permutation of the full agent-identity list (each agent in exactly one pair,
no leftover), and a full `perform_sale` round preserves the set of agent keys
of the wealth mapping. -/
theorem C5_pairing_partition (P : Params) (w : WealthMap) (s : Nat)
    (_hnd : (keys w).Nodup) (_hpos : w ≠ []) (heven : w.length % 2 = 0) :
    ((flattenPairs (chunk2 ((sample (keys (preExchange P w)) s).1))).Perm (keys w))
    ∧ (∀ p : Person, p ∈ keys (perform_sale_seeded P (w, s)).1 ↔ p ∈ keys w) := by
  have hkeysw2 : (keys (preExchange P w)).Perm (keys w) := keys_preExchange_perm P w
  have hperm : ((sample (keys (preExchange P w)) s).1).Perm (keys (preExchange P w)) :=
    sample_perm _ s
  have hpermw : ((sample (keys (preExchange P w)) s).1).Perm (keys w) := hperm.trans hkeysw2
  have hlenperm : (sample (keys (preExchange P w)) s).1.length = w.length := by
    rw [hpermw.length_eq]
    exact List.length_map _ _
  have heven2 : (sample (keys (preExchange P w)) s).1.length % 2 = 0 := by
    rw [hlenperm]
    exact heven
  have hflat : flattenPairs (chunk2 ((sample (keys (preExchange P w)) s).1))
      = (sample (keys (preExchange P w)) s).1 := chunk2_flatten _ heven2
  constructor
  · rw [hflat]
    exact hpermw
  · intro p
    have hkeys4 : (keys (perform_sale_seeded P (w, s)).1).Perm
        ((sample (keys (preExchange P w)) s).1) := by
      simp only [perform_sale_seeded, perform_sale]
      rw [keys_collect]
      have hroll : (roll_dice P.zeta
          (pair_people (preExchange P w) ((sample (keys (preExchange P w)) s).1))
          (sample (keys (preExchange P w)) s).2).1.length
          = (pair_people (preExchange P w) ((sample (keys (preExchange P w)) s).1)).length :=
        roll_dice_length _ _ _
      have h1 := keys_exchange_perm P.win_percentage
        (pair_people (preExchange P w) ((sample (keys (preExchange P w)) s).1)) _ hroll
      rw [pair_people_ids, hflat] at h1
      exact h1
    exact (hkeys4.trans hpermw).mem_iff

theorem C5_witness :
    ((keys [(0, (100:ℚ)), (1, 100)]).Nodup ∧ ([(0, (100:ℚ)), (1, 100)] : WealthMap) ≠ [] ∧
      ([(0, (100:ℚ)), (1, 100)] : WealthMap).length % 2 = 0) ∧
      (((flattenPairs (chunk2 ((sample (keys
          (preExchange ⟨1/2, 0, 0, 0⟩ [(0, 100), (1, 100)])) 0).1))).Perm
            (keys [(0, (100:ℚ)), (1, 100)]))
        ∧ (∀ p : Person,
            p ∈ keys (perform_sale_seeded ⟨1/2, 0, 0, 0⟩ ([(0, 100), (1, 100)], 0)).1 ↔
              p ∈ keys [(0, (100:ℚ)), (1, 100)])) :=
  ⟨⟨by decide, by simp, by decide⟩,
    C5_pairing_partition ⟨1/2, 0, 0, 0⟩ [(0, 100), (1, 100)] 0 (by decide) (by simp) (by decide)⟩

/-! ### Wealth-sum lemmas -/

theorem totalWealth_cons (pw : Person × ℚ) (l : WealthMap) :
    totalWealth (pw :: l) = pw.2 + totalWealth l := by
  simp [totalWealth, values]

theorem values_append (l₁ l₂ : WealthMap) : values (l₁ ++ l₂) = values l₁ ++ values l₂ :=
  List.map_append _ _ _

theorem totalWealth_append (l₁ l₂ : WealthMap) :
    totalWealth (l₁ ++ l₂) = totalWealth l₁ + totalWealth l₂ := by
  unfold totalWealth
  rw [values_append, List.sum_append]

theorem totalWealth_perm {l₁ l₂ : WealthMap} (h : l₁.Perm l₂) :
    totalWealth l₁ = totalWealth l₂ :=
  (h.map Prod.snd).sum_eq

theorem totalWealth_mapSnd (f : Person × ℚ → ℚ) (l : WealthMap) :
    totalWealth (l.map (fun pw => (pw.1, f pw))) = (l.map f).sum := by
  unfold totalWealth values
  rw [List.map_map]
  rfl

theorem sum_map_round2_le {α : Type} (g : α → ℚ) : ∀ l : List α,
    |(l.map (fun a => round2 (g a))).sum - (l.map g).sum| ≤ (l.length : ℚ) / 200
  | [] => by simp
  | a :: l => by
    have IH := sum_map_round2_le g l
    have h1 := round2_abs_le (g a)
    simp only [List.map_cons, List.sum_cons, List.length_cons]
    have hd : round2 (g a) + (l.map (fun a => round2 (g a))).sum - (g a + (l.map g).sum)
        = (round2 (g a) - g a)
          + ((l.map (fun a => round2 (g a))).sum - (l.map g).sum) := by ring
    rw [hd]
    calc |(round2 (g a) - g a) + ((l.map (fun a => round2 (g a))).sum - (l.map g).sum)|
        ≤ |round2 (g a) - g a| + |(l.map (fun a => round2 (g a))).sum - (l.map g).sum| :=
          abs_add _ _
    _ ≤ 1/200 + (l.length : ℚ)/200 := add_le_add h1 IH
    _ = ((l.length : ℚ) + 1)/200 := by ring
    _ = (((l.length + 1 : ℕ)) : ℚ)/200 := by push_cast; ring

theorem sum_map_add_const (c : ℚ) : ∀ l : WealthMap,
    (l.map (fun pw => pw.2 + c)).sum = totalWealth l + (l.length : ℚ) * c
  | [] => by simp [totalWealth, values]
  | pw :: l => by
    simp only [List.map_cons, List.sum_cons, List.length_cons, sum_map_add_const c l,
      totalWealth_cons]
    push_cast
    ring

theorem sum_map_tax (chi : ℚ) : ∀ l : WealthMap,
    (l.map (fun pw => pw.2 - pw.2 * chi)).sum = totalWealth l - chi * totalWealth l
  | [] => by simp [totalWealth, values]
  | pw :: l => by
    simp only [List.map_cons, List.sum_cons, sum_map_tax chi l, totalWealth_cons]
    ring

theorem sum_lt_of_forall_lt (c : ℚ) : ∀ l : List ℚ, (∀ x ∈ l, c < x) → l ≠ [] →
    c * (l.length : ℚ) < l.sum
  | [], _, hne => absurd rfl hne
  | x :: l, h, _ => by
    rcases List.eq_nil_or_concat l with hnil | _
    · subst hnil
      simpa using h x (by simp)
    · have hl : l ≠ [] := by
        rintro rfl
        simp_all
      have IH := sum_lt_of_forall_lt c l (fun y hy => h y (List.mem_cons_of_mem _ hy)) hl
      have hx := h x (by simp)
      simp only [List.sum_cons, List.length_cons]
      push_cast
      nlinarith [IH, hx]

theorem poorOf_ne_nil (w : WealthMap) (hw : w ≠ []) : poorOf (avgWealth w) w ≠ [] := by
  intro hcon
  have hall : ∀ pw ∈ w, avgWealth w < pw.2 := by
    intro pw hpw
    have := List.filter_eq_nil.mp hcon pw hpw
    simpa using not_le.mp (by simpa using this)
  have hallv : ∀ x ∈ values w, avgWealth w < x := by
    intro x hx
    rcases List.mem_map.mp hx with ⟨pw, hpw, rfl⟩
    exact hall pw hpw
  have hvne : values w ≠ [] := by
    intro hv
    exact hw (List.map_eq_nil.mp hv)
  have hlt := sum_lt_of_forall_lt (avgWealth w) (values w) hallv hvne
  have hn0 : ((values w).length : ℚ) ≠ 0 := by
    have hp : (values w).length ≠ 0 := fun hcon => hvne (List.length_eq_zero.mp hcon)
    exact_mod_cast hp
  have hlenv : (values w).length = w.length := List.length_map _ _
  have havg : avgWealth w * ((values w).length : ℚ) = (values w).sum := by
    unfold avgWealth totalWealth nPeople
    rw [hlenv]
    exact div_mul_cancel₀ _ (hlenv ▸ hn0)
  rw [havg] at hlt
  exact lt_irrefl _ hlt

/-! ### Per-phase conservation bounds -/

theorem pay_tax_total (chi : ℚ) (w : WealthMap) (hw : w ≠ []) :
    |totalWealth (pay_tax chi (avgWealth w) w) - totalWealth w|
      ≤ 1/100 + (w.length : ℚ)/200 := by
  have hpo : poorOf (avgWealth w) w ≠ [] := poorOf_ne_nil w hw
  have hpolen : 0 < (poorOf (avgWealth w) w).length := List.length_pos.mpr hpo
  have hm0 : ((poorOf (avgWealth w) w).length : ℚ) ≠ 0 := by
    have hp : (poorOf (avgWealth w) w).length ≠ 0 := by omega
    exact_mod_cast hp
  have hlen : (richOf (avgWealth w) w).length + (poorOf (avgWealth w) w).length = w.length := by
    have h := (richOf_poorOf_perm (avgWealth w) w).length_eq
    simpa [List.length_append] using h
  have htot : totalWealth w
      = totalWealth (richOf (avgWealth w) w) + totalWealth (poorOf (avgWealth w) w) := by
    rw [← totalWealth_append]
    exact (totalWealth_perm (richOf_poorOf_perm (avgWealth w) w)).symm
  have hT1 : trunc2 (chi * (values (richOf (avgWealth w) w)).sum)
      ≤ chi * totalWealth (richOf (avgWealth w) w) := trunc2_le _
  have hT2 : chi * totalWealth (richOf (avgWealth w) w) - 1/100
      < trunc2 (chi * (values (richOf (avgWealth w) w)).sum) := lt_trunc2_add _
  -- the poor side
  have hpoorRound := sum_map_round2_le
    (fun pw => pw.2 + trunc2 (chi * (values (richOf (avgWealth w) w)).sum)
      / ((poorOf (avgWealth w) w).length : ℚ)) (poorOf (avgWealth w) w)
  have hpoorSum := sum_map_add_const
    (trunc2 (chi * (values (richOf (avgWealth w) w)).sum)
      / ((poorOf (avgWealth w) w).length : ℚ)) (poorOf (avgWealth w) w)
  have hcancel : ((poorOf (avgWealth w) w).length : ℚ)
      * (trunc2 (chi * (values (richOf (avgWealth w) w)).sum)
        / ((poorOf (avgWealth w) w).length : ℚ))
      = trunc2 (chi * (values (richOf (avgWealth w) w)).sum) := by
    field_simp
  rw [hpoorSum, hcancel] at hpoorRound
  -- the rich side
  by_cases hR : 0 < (richOf (avgWealth w) w).length
  · have hrichRound := sum_map_round2_le (fun pw => pw.2 - pw.2 * chi) (richOf (avgWealth w) w)
    have hrichSum := sum_map_tax chi (richOf (avgWealth w) w)
    rw [hrichSum] at hrichRound
    have hunfold : pay_tax chi (avgWealth w) w
        = (richOf (avgWealth w) w).map (fun pw => (pw.1, round2 (pw.2 - pw.2 * chi)))
          ++ (poorOf (avgWealth w) w).map (fun pw => (pw.1,
              round2 (pw.2 + trunc2 (chi * (values (richOf (avgWealth w) w)).sum)
                / ((poorOf (avgWealth w) w).length : ℚ)))) := by
      simp only [pay_tax, if_pos hpolen, if_pos hR]
    rw [hunfold, totalWealth_append, totalWealth_mapSnd, totalWealth_mapSnd]
    rw [abs_le] at hpoorRound hrichRound ⊢
    have hcast : ((w.length : ℚ))
        = ((richOf (avgWealth w) w).length : ℚ) + ((poorOf (avgWealth w) w).length : ℚ) := by
      rw [← hlen]
      push_cast
      ring
    constructor <;>
      linarith [hpoorRound.1, hpoorRound.2, hrichRound.1, hrichRound.2, hT1, hT2, htot, hcast]
  · have hRnil : richOf (avgWealth w) w = [] := List.length_eq_zero.mp (by omega)
    have hSR : totalWealth (richOf (avgWealth w) w) = 0 := by
      rw [hRnil]
      simp [totalWealth, values]
    have hvals : (values (richOf (avgWealth w) w)).sum = 0 := hSR
    have hT : trunc2 (chi * (values (richOf (avgWealth w) w)).sum) = 0 := by
      rw [hvals, mul_zero]
      norm_num [trunc2]
    have htw : totalWealth (pay_tax chi (avgWealth w) w)
        = ((poorOf (avgWealth w) w).map (fun pw =>
            round2 (pw.2 + trunc2 (chi * (values (richOf (avgWealth w) w)).sum)
              / ((poorOf (avgWealth w) w).length : ℚ)))).sum := by
      simp only [pay_tax, if_pos hpolen, if_neg hR]
      rw [totalWealth_append, totalWealth_mapSnd, hSR, zero_add]
    rw [htw]
    rw [abs_le] at hpoorRound ⊢
    have hlc : ((poorOf (avgWealth w) w).length : ℚ) ≤ (w.length : ℚ) := by
      have hn : (poorOf (avgWealth w) w).length ≤ w.length := by omega
      exact_mod_cast hn
    constructor <;> linarith [hpoorRound.1, hpoorRound.2, hT, htot, hSR, hlc,
      (by positivity : (0:ℚ) ≤ ((poorOf (avgWealth w) w).length : ℚ))]

theorem loan_total (kappa avg : ℚ) (w : WealthMap) :
    |totalWealth (loan_S kappa avg w) - (totalWealth w + (w.length : ℚ) * (kappa * avg))|
      ≤ (w.length : ℚ)/200 := by
  unfold loan_S
  rw [totalWealth_mapSnd]
  have h1 := sum_map_round2_le (fun pw => pw.2 + kappa * avg) w
  rw [sum_map_add_const] at h1
  exact h1

theorem collect_total (kappa avg : ℚ) (w : WealthMap) :
    |totalWealth (collect_S kappa avg w) - (totalWealth w - (w.length : ℚ) * (kappa * avg))|
      ≤ (w.length : ℚ)/200 := by
  unfold collect_S
  rw [totalWealth_mapSnd]
  have hg : (fun pw : Person × ℚ => round2 (pw.2 - kappa * avg))
      = (fun pw : Person × ℚ => round2 (pw.2 + (-(kappa * avg)))) := by
    funext pw
    rw [sub_eq_add_neg]
  rw [hg]
  have h1 := sum_map_round2_le (fun pw : Person × ℚ => pw.2 + (-(kappa * avg))) w
  rw [sum_map_add_const] at h1
  have hr : totalWealth w + (w.length : ℚ) * (-(kappa * avg))
      = totalWealth w - (w.length : ℚ) * (kappa * avg) := by ring
  rw [hr] at h1
  exact h1

theorem totalWealth_pair (k1 k2 : Person) (q1 q2 : ℚ) :
    totalWealth [(k1, q1), (k2, q2)] = q1 + q2 := by
  simp [totalWealth, values]

theorem round2_pair_sum (X Y S : ℚ) (h : X + Y = S) : |round2 X + round2 Y - S| ≤ 1/100 := by
  have h1 := round2_abs_le X
  have h2 := round2_abs_le Y
  have hd : round2 X + round2 Y - S = (round2 X - X) + (round2 Y - Y) := by
    rw [← h]
    ring
  rw [hd]
  calc |(round2 X - X) + (round2 Y - Y)| ≤ |round2 X - X| + |round2 Y - Y| := abs_add _ _
  _ ≤ 1/100 := by linarith

theorem settle_sum (wp : ℚ) (pair : (Person × ℚ) × (Person × ℚ)) (roll : ℤ) :
    |totalWealth (settle_pair wp pair roll) - (pair.1.2 + pair.2.2)| ≤ 1/100 := by
  by_cases h1 : pair.1.2 = pair.2.2
  · simp only [settle_pair, if_pos h1, totalWealth_pair]
    exact round2_pair_sum _ _ _ (by ring)
  · by_cases h2 : pair.1.2 < pair.2.2
    · simp only [settle_pair, if_neg h1, if_pos h2, totalWealth_pair]
      exact round2_pair_sum _ _ _ (by ring)
    · simp only [settle_pair, if_neg h1, if_neg h2, totalWealth_pair]
      exact round2_pair_sum _ _ _ (by ring)

theorem exchange_total (wp : ℚ) :
    ∀ (pairs : List ((Person × ℚ) × (Person × ℚ))) (rolls : List ℤ),
      rolls.length = pairs.length →
      |totalWealth (exchange_wealth wp pairs rolls)
          - (pairs.map (fun pr => pr.1.2 + pr.2.2)).sum| ≤ (pairs.length : ℚ)/100
  | [], _, _ => by simp [exchange_wealth, totalWealth, values]
  | p :: rest, [], h => by simp at h
  | p :: rest, r :: rs, h => by
    have hlen : rs.length = rest.length := by simpa using h
    have IH := exchange_total wp rest rs hlen
    have hs := settle_sum wp p r
    have hexp : exchange_wealth wp (p :: rest) (r :: rs)
        = settle_pair wp p r ++ exchange_wealth wp rest rs := by
      simp [exchange_wealth]
    rw [hexp, totalWealth_append]
    simp only [List.map_cons, List.sum_cons, List.length_cons]
    have hd : totalWealth (settle_pair wp p r) + totalWealth (exchange_wealth wp rest rs)
        - (p.1.2 + p.2.2 + (rest.map (fun pr => pr.1.2 + pr.2.2)).sum)
        = (totalWealth (settle_pair wp p r) - (p.1.2 + p.2.2))
          + (totalWealth (exchange_wealth wp rest rs)
            - (rest.map (fun pr => pr.1.2 + pr.2.2)).sum) := by ring
    rw [hd]
    calc |(totalWealth (settle_pair wp p r) - (p.1.2 + p.2.2))
          + (totalWealth (exchange_wealth wp rest rs)
            - (rest.map (fun pr => pr.1.2 + pr.2.2)).sum)|
        ≤ |totalWealth (settle_pair wp p r) - (p.1.2 + p.2.2)|
          + |totalWealth (exchange_wealth wp rest rs)
            - (rest.map (fun pr => pr.1.2 + pr.2.2)).sum| := abs_add _ _
    _ ≤ 1/100 + (rest.length : ℚ)/100 := add_le_add hs IH
    _ = ((rest.length : ℚ) + 1)/100 := by ring
    _ = (((rest.length + 1 : ℕ)) : ℚ)/100 := by push_cast; ring

theorem exchange_length (wp : ℚ) :
    ∀ (pairs : List ((Person × ℚ) × (Person × ℚ))) (rolls : List ℤ),
      rolls.length = pairs.length →
      (exchange_wealth wp pairs rolls).length = 2 * pairs.length
  | [], _, _ => by simp [exchange_wealth]
  | p :: rest, [], h => by simp at h
  | p :: rest, r :: rs, h => by
    have hlen : rs.length = rest.length := by simpa using h
    have IH := exchange_length wp rest rs hlen
    have hexp : exchange_wealth wp (p :: rest) (r :: rs)
        = settle_pair wp p r ++ exchange_wealth wp rest rs := by
      simp [exchange_wealth]
    rw [hexp, List.length_append, IH]
    have hsl : (settle_pair wp p r).length = 2 := by
      by_cases h1 : p.1.2 = p.2.2
      · simp [settle_pair, h1]
      · by_cases h2 : p.1.2 < p.2.2 <;> simp [settle_pair, h1, h2]
    rw [hsl]
    simp [List.length_cons]
    ring

/-! ### Summing balances along a permutation of the keys -/

theorem map_lookupW_keys : ∀ w : WealthMap, (keys w).Nodup →
    (keys w).map (lookupW w) = values w
  | [], _ => rfl
  | pw :: rest, hnd => by
    have hnotin : pw.1 ∉ keys rest := by
      have h := hnd
      simp only [keys, List.map_cons, List.nodup_cons] at h
      exact h.1
    have hndrest : (keys rest).Nodup := by
      have h := hnd
      simp only [keys, List.map_cons, List.nodup_cons] at h
      exact h.2
    have hhead : lookupW (pw :: rest) pw.1 = pw.2 := by
      simp [lookupW, lookup?]
    have htail : ∀ k ∈ keys rest, lookupW (pw :: rest) k = lookupW rest k := by
      intro k hk
      have hne : pw.1 ≠ k := fun hcon => hnotin (hcon ▸ hk)
      simp [lookupW, lookup?, hne]
    calc (keys (pw :: rest)).map (lookupW (pw :: rest))
        = lookupW (pw :: rest) pw.1 :: (keys rest).map (lookupW (pw :: rest)) := by
          simp [keys]
    _ = pw.2 :: (keys rest).map (lookupW rest) := by
          rw [hhead, List.map_congr_left htail]
    _ = pw.2 :: values rest := by rw [map_lookupW_keys rest hndrest]
    _ = values (pw :: rest) := by simp [values]

theorem sum_lookup_perm (w : WealthMap) (perm : List Person)
    (hnd : (keys w).Nodup) (hp : perm.Perm (keys w)) :
    (perm.map (lookupW w)).sum = totalWealth w := by
  rw [(hp.map (lookupW w)).sum_eq, map_lookupW_keys w hnd]
  rfl

theorem pairSum_flatten (f : Person → ℚ) : ∀ l : List (Person × Person),
    (l.map (fun ab => f ab.1 + f ab.2)).sum = ((flattenPairs l).map f).sum
  | [] => rfl
  | ab :: l => by
    simp only [List.map_cons, List.sum_cons, pairSum_flatten f l, flattenPairs,
      List.flatten_cons, List.map_append, List.sum_append]
    simp [flattenPairs]

theorem pair_people_sum (w : WealthMap) (perm : List Person) :
    ((pair_people w perm).map (fun pr => pr.1.2 + pr.2.2)).sum
      = ((flattenPairs (chunk2 perm)).map (lookupW w)).sum := by
  unfold pair_people
  rw [List.map_map, ← pairSum_flatten]
  rfl

/-! ### Length lemmas for the phase pipeline -/

theorem length_keys (w : WealthMap) : (keys w).length = w.length :=
  List.length_map _ _

theorem length_pay_tax (chi avg : ℚ) (w : WealthMap) :
    (pay_tax chi avg w).length = w.length := by
  have hlen : (richOf avg w).length + (poorOf avg w).length = w.length := by
    have h := (richOf_poorOf_perm avg w).length_eq
    simpa [List.length_append] using h
  simp only [pay_tax, List.length_append]
  by_cases hp : 0 < (poorOf avg w).length
  · by_cases hr : 0 < (richOf avg w).length
    · rw [if_pos hp, if_pos hr, List.length_map, List.length_map]
      exact hlen
    · rw [if_pos hp, if_neg hr, List.length_map]
      exact hlen
  · by_cases hr : 0 < (richOf avg w).length
    · rw [if_pos hr, if_neg hp, List.length_map]
      exact hlen
    · rw [if_neg hp, if_neg hr]
      exact hlen

theorem length_preExchange (P : Params) (w : WealthMap) :
    (preExchange P w).length = w.length := by
  unfold preExchange loan_S
  rw [List.length_map, length_pay_tax]

theorem nat_half_cast (n : ℕ) (h : n % 2 = 0) : ((n / 2 : ℕ) : ℚ) = (n : ℚ) / 2 := by
  rw [eq_div_iff (two_ne_zero)]
  exact_mod_cast (by omega : n / 2 * 2 = n)

/-! ### The per-round conservation bound -/

theorem round_total_core (P : Params) (w : WealthMap) (perm : List Person) (rolls : List ℤ)
    (hnd : (keys w).Nodup) (hw : w ≠ []) (heven : w.length % 2 = 0)
    (hperm : perm.Perm (keys (preExchange P w)))
    (hroll : rolls.length = (pair_people (preExchange P w) perm).length) :
    |totalWealth (perform_sale P perm rolls w) - totalWealth w|
      ≤ 1/100 + (w.length : ℚ)/50 := by
  have hq1 := pay_tax_total P.chi w hw
  have hlen1 : (pay_tax P.chi (avgWealth w) w).length = w.length := length_pay_tax _ _ _
  have hq2 := loan_total P.kappa (avgWealth w) (pay_tax P.chi (avgWealth w) w)
  rw [hlen1] at hq2
  have hpre : loan_S P.kappa (avgWealth w) (pay_tax P.chi (avgWealth w) w)
      = preExchange P w := rfl
  rw [hpre] at hq2
  have hlen2 : (preExchange P w).length = w.length := length_preExchange P w
  have hkeys2 : (keys (preExchange P w)).Nodup := ((keys_preExchange_perm P w).nodup_iff).mpr hnd
  have hpermlen : perm.length = w.length := by
    rw [hperm.length_eq, length_keys, hlen2]
  have hevenp : perm.length % 2 = 0 := by
    rw [hpermlen]
    exact heven
  have hflat : flattenPairs (chunk2 perm) = perm := chunk2_flatten perm hevenp
  have hq3 := exchange_total P.win_percentage (pair_people (preExchange P w) perm) rolls hroll
  have hpairsum : ((pair_people (preExchange P w) perm).map (fun pr => pr.1.2 + pr.2.2)).sum
      = totalWealth (preExchange P w) := by
    rw [pair_people_sum, hflat]
    exact sum_lookup_perm _ perm hkeys2 hperm
  rw [hpairsum] at hq3
  have hpairlen : (pair_people (preExchange P w) perm).length = w.length / 2 := by
    unfold pair_people
    rw [List.length_map, chunk2_length, hpermlen]
  rw [hpairlen, nat_half_cast w.length heven] at hq3
  have hlen3 : (exchange_wealth P.win_percentage
      (pair_people (preExchange P w) perm) rolls).length = w.length := by
    rw [exchange_length _ _ _ hroll, hpairlen]
    omega
  have hq4 := collect_total P.kappa (avgWealth w)
    (exchange_wealth P.win_percentage (pair_people (preExchange P w) perm) rolls)
  rw [hlen3] at hq4
  have hgoal : perform_sale P perm rolls w
      = collect_S P.kappa (avgWealth w)
          (exchange_wealth P.win_percentage (pair_people (preExchange P w) perm) rolls) := rfl
  rw [hgoal]
  rw [abs_le] at hq1 hq2 hq3 hq4 ⊢
  constructor <;>
    linarith [hq1.1, hq1.2, hq2.1, hq2.2, hq3.1, hq3.2, hq4.1, hq4.2]

theorem perform_sale_seeded_total_bound (P : Params) (w : WealthMap) (s : Nat)
    (hnd : (keys w).Nodup) (hw : w ≠ []) (heven : w.length % 2 = 0) :
    |totalWealth (perform_sale_seeded P (w, s)).1 - totalWealth w|
      ≤ 1/100 + (w.length : ℚ)/50 := by
  have hres : (perform_sale_seeded P (w, s)).1
      = perform_sale P ((sample (keys (preExchange P w)) s).1)
          ((roll_dice P.zeta
            (pair_people (preExchange P w) ((sample (keys (preExchange P w)) s).1))
            (sample (keys (preExchange P w)) s).2).1) w := rfl
  rw [hres]
  exact round_total_core P w _ _ hnd hw heven (sample_perm _ s) (roll_dice_length _ _ _)

/-! ### The exact concrete scenario: four equal agents, exchange only -/

theorem chunk2_mem : ∀ (l : List Person) (ab : Person × Person), ab ∈ chunk2 l →
    ab.1 ∈ l ∧ ab.2 ∈ l
  | a :: b :: rest, ab, h => by
    simp only [chunk2, List.mem_cons] at h
    rcases h with h | h
    · subst h
      simp
    · have ih := chunk2_mem rest ab h
      simp [ih.1, ih.2]
  | [], _, h => by simp [chunk2] at h
  | [a], _, h => by simp [chunk2] at h

theorem exchange_mem_round2 (wp : ℚ) (pairs : List ((Person × ℚ) × (Person × ℚ)))
    (rolls : List ℤ) (pw : Person × ℚ)
    (h : pw ∈ exchange_wealth wp pairs rolls) : ∃ x, pw.2 = round2 x := by
  unfold exchange_wealth at h
  rcases List.mem_flatten.mp h with ⟨l, hl, hpw⟩
  rcases List.mem_map.mp hl with ⟨pr, _, rfl⟩
  revert hpw
  unfold settle_pair
  intro hpw
  simp only [List.mem_cons, List.not_mem_nil, or_false] at hpw
  rcases hpw with h | h
  · exact ⟨_, congrArg Prod.snd h⟩
  · exact ⟨_, congrArg Prod.snd h⟩

theorem collect_zero_total (avg : ℚ) (w : WealthMap)
    (h : ∀ pw ∈ w, ∃ x, pw.2 = round2 x) :
    totalWealth (collect_S 0 avg w) = totalWealth w := by
  unfold collect_S
  rw [totalWealth_mapSnd]
  have hcong : ∀ pw ∈ w, round2 (pw.2 - 0 * avg) = pw.2 := by
    intro pw hpw
    rcases h pw hpw with ⟨x, hx⟩
    rw [show pw.2 - 0 * avg = pw.2 by ring, hx, round2_round2]
  rw [List.map_congr_left hcong]
  rfl

theorem exchange_halfwin_sum : ∀ (pairs : List ((Person × ℚ) × (Person × ℚ)))
    (rolls : List ℤ), rolls.length = pairs.length →
    (∀ pr ∈ pairs, pr.1.2 = 100 ∧ pr.2.2 = 100) →
    totalWealth (exchange_wealth (1/2) pairs rolls) = 200 * (pairs.length : ℚ)
  | [], _, _, _ => by simp [exchange_wealth, totalWealth, values]
  | p :: rest, [], h, _ => by simp at h
  | p :: rest, r :: rs, h, hall => by
    have hlen : rs.length = rest.length := by simpa using h
    obtain ⟨h1, h2⟩ := hall p (by simp)
    have IH := exchange_halfwin_sum rest rs hlen
      (fun pr hpr => hall pr (List.mem_cons_of_mem _ hpr))
    have hexp : exchange_wealth (1/2) (p :: rest) (r :: rs)
        = settle_pair (1/2) p r ++ exchange_wealth (1/2) rest rs := by
      simp [exchange_wealth]
    rw [hexp, totalWealth_append, IH]
    have hsettle : totalWealth (settle_pair (1/2) p r) = 200 := by
      simp only [settle_pair, h1, h2, eq_self_iff_true, if_true, totalWealth_pair]
      have hmin : min (100:ℚ) 100 * (1/2) = 50 := by norm_num
      rw [hmin]
      have e1 : (100 : ℚ) + (2 * (r : ℚ) - 1) * 50 = ((100 + (2 * r - 1) * 50 : ℤ) : ℚ) := by
        push_cast
        ring
      have e2 : (100 : ℚ) + (1 - 2 * (r : ℚ)) * 50 = ((100 + (1 - 2 * r) * 50 : ℤ) : ℚ) := by
        push_cast
        ring
      rw [e1, e2, round2_intCast, round2_intCast]
      push_cast
      ring
    rw [hsettle]
    simp only [List.length_cons]
    push_cast
    ring

theorem roll_dice_mem (zeta : ℚ) : ∀ (pairs : List ((Person × ℚ) × (Person × ℚ))) (s : Nat),
    ∀ r ∈ (roll_dice zeta pairs s).1, r = 0 ∨ r = 1
  | [], _, r, hr => by simp [roll_dice] at hr
  | p :: rest, s, r, hr => by
    simp only [roll_dice, weighted_choice, List.mem_cons] at hr
    rcases hr with hr | hr
    · subst hr
      split
      · exact Or.inl rfl
      · exact Or.inr rfl
    · exact roll_dice_mem zeta rest _ r hr

theorem scenario_400 (s : Nat) :
    totalWealth (perform_sale_seeded ⟨1/2, 0, 0, 0⟩
      ([(0, 100), (1, 100), (2, 100), (3, 100)], s)).1 = 400 := by
  have h100 : round2 (100:ℚ) = 100 := by
    unfold round2 rhe
    norm_num
  have havg : avgWealth [(0, 100), (1, 100), (2, 100), (3, 100)] = 100 := by
    norm_num [avgWealth, totalWealth, values, nPeople]
  have htax : pay_tax 0 (100:ℚ) [(0, 100), (1, 100), (2, 100), (3, 100)]
      = [(0, 100), (1, 100), (2, 100), (3, 100)] := by
    norm_num [pay_tax, richOf, poorOf, List.filter, trunc2, totalWealth, values, h100]
  have hpre : preExchange ⟨1/2, 0, 0, 0⟩ [(0, 100), (1, 100), (2, 100), (3, 100)]
      = [(0, 100), (1, 100), (2, 100), (3, 100)] := by
    have hu : preExchange ⟨1/2, 0, 0, 0⟩ [(0, 100), (1, 100), (2, 100), (3, 100)]
        = loan_S 0 (avgWealth [(0, 100), (1, 100), (2, 100), (3, 100)])
            (pay_tax 0 (avgWealth [(0, 100), (1, 100), (2, 100), (3, 100)])
              [(0, 100), (1, 100), (2, 100), (3, 100)]) := rfl
    rw [hu, havg, htax]
    norm_num [loan_S, h100]
  have hres : (perform_sale_seeded ⟨1/2, 0, 0, 0⟩
      ([(0, 100), (1, 100), (2, 100), (3, 100)], s)).1
      = collect_S 0 (avgWealth [(0, 100), (1, 100), (2, 100), (3, 100)])
          (exchange_wealth (1/2)
            (pair_people
              (preExchange ⟨1/2, 0, 0, 0⟩ [(0, 100), (1, 100), (2, 100), (3, 100)])
              ((sample (keys (preExchange ⟨1/2, 0, 0, 0⟩
                [(0, 100), (1, 100), (2, 100), (3, 100)])) s).1))
            ((roll_dice 0
              (pair_people
                (preExchange ⟨1/2, 0, 0, 0⟩ [(0, 100), (1, 100), (2, 100), (3, 100)])
                ((sample (keys (preExchange ⟨1/2, 0, 0, 0⟩
                  [(0, 100), (1, 100), (2, 100), (3, 100)])) s).1))
              (sample (keys (preExchange ⟨1/2, 0, 0, 0⟩
                [(0, 100), (1, 100), (2, 100), (3, 100)])) s).2).1)) := rfl
  rw [hres, hpre]
  have hkeys : keys [((0:Person), (100:ℚ)), (1, 100), (2, 100), (3, 100)] = [0, 1, 2, 3] := rfl
  rw [hkeys]
  have hperm := sample_perm [0, 1, 2, 3] s
  have hlk : ∀ k ∈ ([0, 1, 2, 3] : List Person),
      lookupW [((0:Person), (100:ℚ)), (1, 100), (2, 100), (3, 100)] k = 100 := by
    intro k hk
    fin_cases hk <;> rfl
  have hall : ∀ pr ∈ pair_people [((0:Person), (100:ℚ)), (1, 100), (2, 100), (3, 100)]
      ((sample [0, 1, 2, 3] s).1), pr.1.2 = 100 ∧ pr.2.2 = 100 := by
    intro pr hpr
    rcases List.mem_map.mp hpr with ⟨ab, hab, rfl⟩
    have hm := chunk2_mem _ ab hab
    exact ⟨hlk ab.1 (hperm.mem_iff.mp hm.1), hlk ab.2 (hperm.mem_iff.mp hm.2)⟩
  have hroll := roll_dice_length 0
    (pair_people [((0:Person), (100:ℚ)), (1, 100), (2, 100), (3, 100)]
      ((sample [0, 1, 2, 3] s).1)) ((sample [0, 1, 2, 3] s).2)
  have hmem : ∀ pw ∈ exchange_wealth (1/2)
      (pair_people [((0:Person), (100:ℚ)), (1, 100), (2, 100), (3, 100)]
        ((sample [0, 1, 2, 3] s).1))
      ((roll_dice 0 (pair_people [((0:Person), (100:ℚ)), (1, 100), (2, 100), (3, 100)]
        ((sample [0, 1, 2, 3] s).1)) ((sample [0, 1, 2, 3] s).2)).1),
      ∃ x, pw.2 = round2 x :=
    fun pw h => exchange_mem_round2 _ _ _ pw h
  rw [collect_zero_total _ _ hmem, exchange_halfwin_sum _ _ hroll hall]
  have hpl : (pair_people [((0:Person), (100:ℚ)), (1, 100), (2, 100), (3, 100)]
      ((sample [0, 1, 2, 3] s).1)).length = 2 := by
    unfold pair_people
    rw [List.length_map, chunk2_length, hperm.length_eq]
    rfl
  rw [hpl]
  norm_num

/-! ### C2 — per-round wealth conservation -/

/-- C2 (amended): for every valid initial wealth mapping (unique keys,
non-empty, even size) and any parameters and seed, the total balance moves by
at most `0.01 + 0.02 × agent_count` across one round (one cent of tax
truncation plus up to half a cent of rounding per agent in each of the four
rounding phases); and in the concrete scenario of four agents at 100 with
`win_percentage = 0.5` and `chi = zeta = kappa = 0`, the total after one round
is exactly 400 for every seed. -/
theorem C2_conservation_amended :
    (∀ (P : Params) (w : WealthMap) (s : Nat),
      (keys w).Nodup → w ≠ [] → w.length % 2 = 0 →
      |totalWealth (perform_sale_seeded P (w, s)).1 - totalWealth w|
        ≤ 1/100 + (w.length : ℚ)/50)
    ∧ (∀ s : Nat, totalWealth (perform_sale_seeded ⟨1/2, 0, 0, 0⟩
        ([(0, 100), (1, 100), (2, 100), (3, 100)], s)).1 = 400) :=
  ⟨fun P w s hnd hw he => perform_sale_seeded_total_bound P w s hnd hw he, scenario_400⟩

theorem C2_witness :
    ((keys [((0:Person), (100:ℚ)), (1, 100), (2, 100), (3, 100)]).Nodup ∧
      ([(0, 100), (1, 100), (2, 100), (3, 100)] : WealthMap) ≠ [] ∧
      ([(0, 100), (1, 100), (2, 100), (3, 100)] : WealthMap).length % 2 = 0) ∧
    |totalWealth (perform_sale_seeded ⟨1/2, 0, 0, 0⟩
        (([(0, 100), (1, 100), (2, 100), (3, 100)] : WealthMap), 1)).1
      - totalWealth [(0, 100), (1, 100), (2, 100), (3, 100)]|
      ≤ 1/100 + ((([(0, 100), (1, 100), (2, 100), (3, 100)] : WealthMap).length : ℚ))/50 ∧
    totalWealth (perform_sale_seeded ⟨1/2, 0, 0, 0⟩
      (([(0, 100), (1, 100), (2, 100), (3, 100)] : WealthMap), 1)).1 = 400 :=
  ⟨⟨by decide, by simp, by decide⟩,
    C2_conservation_amended.1 ⟨1/2, 0, 0, 0⟩ [(0, 100), (1, 100), (2, 100), (3, 100)] 1
      (by decide) (by simp) (by decide),
    C2_conservation_amended.2 1⟩

/-! ### C2 counterexample to the original `0.01 × agent_count` tolerance -/

theorem cex_avg : avgWealth [(0, -1499/100000), (1, 2251/50000)] = 3003/200000 := by
  norm_num [avgWealth, totalWealth, values, nPeople]

theorem cex_tax : pay_tax (2001/4502) (3003/200000) [(0, -1499/100000), (1, 2251/50000)]
    = [(1, 3/100), (0, 1/100)] := by
  have h1 : round2 (2501/100000 : ℚ) = 3/100 := by
    unfold round2 rhe
    norm_num
  have h2 : round2 (501/100000 : ℚ) = 1/100 := by
    unfold round2 rhe
    norm_num
  norm_num [pay_tax, richOf, poorOf, List.filter, trunc2, totalWealth, values]
  norm_num [show (2251:ℚ)/50000 - 2251/50000 * (2001/4502) = 2501/100000 by norm_num,
    show (-1499:ℚ)/100000 + 2/100 = 501/100000 by norm_num, h1, h2]

theorem cex_pre : preExchange ⟨1, 2001/4502, 0, 1000/3003⟩ [(0, -1499/100000), (1, 2251/50000)]
    = [(1, 1/25), (0, 1/50)] := by
  have h1 : round2 (7/200 : ℚ) = 1/25 := by
    unfold round2 rhe
    norm_num
  have h2 : round2 (3/200 : ℚ) = 1/50 := by
    unfold round2 rhe
    norm_num
  have hu : preExchange ⟨1, 2001/4502, 0, 1000/3003⟩ [(0, -1499/100000), (1, 2251/50000)]
      = loan_S (1000/3003) (avgWealth [(0, -1499/100000), (1, 2251/50000)])
          (pay_tax (2001/4502) (avgWealth [(0, -1499/100000), (1, 2251/50000)])
            [(0, -1499/100000), (1, 2251/50000)]) := rfl
  rw [hu, cex_avg, cex_tax]
  norm_num [loan_S]
  norm_num [show (3:ℚ)/100 + 1000/3003 * (3003/200000) = 7/200 by norm_num,
    show (1:ℚ)/100 + 1000/3003 * (3003/200000) = 3/200 by norm_num, h1, h2]

theorem cex_sample : (sample (keys [((1:Person), (1:ℚ)/25), (0, 1/50)]) 0).1 = [1, 0] := by
  norm_num [sample, sampleAux, keys, rngNext, List.eraseIdx]

theorem cex_pairs : pair_people [((1:Person), (1:ℚ)/25), (0, 1/50)] [1, 0]
    = [((1, 1/25), (0, 1/50))] := by
  norm_num [pair_people, chunk2, lookupW, lookup?]

theorem cex_round0 : totalWealth (collect_S (1000/3003) (3003/200000)
    (exchange_wealth 1 [((1, (1:ℚ)/25), (0, 1/50))] [0])) = 3/50 := by
  have h0 : round2 (-(1/200) : ℚ) = 0 := by
    unfold round2 rhe
    norm_num
  have h1 : round2 (0 : ℚ) = 0 := by
    unfold round2 rhe
    norm_num
  have h2 : round2 (3/50 : ℚ) = 3/50 := by
    unfold round2 rhe
    norm_num
  have h3 : round2 (11/200 : ℚ) = 3/50 := by
    unfold round2 rhe
    norm_num
  norm_num [exchange_wealth, settle_pair, collect_S, totalWealth, values, List.zip,
    List.zipWith, h0, h1, h2, h3]

theorem cex_round1 : totalWealth (collect_S (1000/3003) (3003/200000)
    (exchange_wealth 1 [((1, (1:ℚ)/25), (0, 1/50))] [1])) = 3/50 := by
  have h1 : round2 (1/25 : ℚ) = 1/25 := by
    unfold round2 rhe
    norm_num
  have h2 : round2 (1/50 : ℚ) = 1/50 := by
    unfold round2 rhe
    norm_num
  have h3 : round2 (7/200 : ℚ) = 1/25 := by
    unfold round2 rhe
    norm_num
  have h4 : round2 (3/200 : ℚ) = 1/50 := by
    unfold round2 rhe
    norm_num
  norm_num [exchange_wealth, settle_pair, collect_S, totalWealth, values, List.zip,
    List.zipWith, h1, h2, h3, h4]

theorem cex_round_any (r : ℤ) (hr : r = 0 ∨ r = 1) :
    totalWealth (perform_sale ⟨1, 2001/4502, 0, 1000/3003⟩ [1, 0] [r]
      [(0, -1499/100000), (1, 2251/50000)]) = 3/50 := by
  have hps : perform_sale ⟨1, 2001/4502, 0, 1000/3003⟩ [1, 0] [r]
      [(0, -1499/100000), (1, 2251/50000)]
      = collect_S (1000/3003) (avgWealth [(0, -1499/100000), (1, 2251/50000)])
          (exchange_wealth 1
            (pair_people (preExchange ⟨1, 2001/4502, 0, 1000/3003⟩
              [(0, -1499/100000), (1, 2251/50000)]) [1, 0]) [r]) := rfl
  rw [hps, cex_pre, cex_pairs, cex_avg]
  rcases hr with rfl | rfl
  · exact cex_round0
  · exact cex_round1

theorem cex_total : totalWealth (perform_sale_seeded ⟨1, 2001/4502, 0, 1000/3003⟩
    ([(0, -1499/100000), (1, 2251/50000)], 0)).1 = 3/50 := by
  have hres : (perform_sale_seeded ⟨1, 2001/4502, 0, 1000/3003⟩
      ([(0, -1499/100000), (1, 2251/50000)], 0)).1
      = perform_sale ⟨1, 2001/4502, 0, 1000/3003⟩
          ((sample (keys (preExchange ⟨1, 2001/4502, 0, 1000/3003⟩
            [(0, -1499/100000), (1, 2251/50000)])) 0).1)
          ((roll_dice 0
            (pair_people (preExchange ⟨1, 2001/4502, 0, 1000/3003⟩
                [(0, -1499/100000), (1, 2251/50000)])
              ((sample (keys (preExchange ⟨1, 2001/4502, 0, 1000/3003⟩
                [(0, -1499/100000), (1, 2251/50000)])) 0).1))
            (sample (keys (preExchange ⟨1, 2001/4502, 0, 1000/3003⟩
              [(0, -1499/100000), (1, 2251/50000)])) 0).2).1)
          [(0, -1499/100000), (1, 2251/50000)] := rfl
  rw [hres, cex_pre, cex_sample, cex_pairs]
  have hlen : ((roll_dice 0 [((1, (1:ℚ)/25), (0, 1/50))]
      ((sample (keys [((1:Person), (1:ℚ)/25), (0, 1/50)]) 0).2)).1).length = 1 := by
    rw [roll_dice_length]
    rfl
  obtain ⟨r, hr⟩ := List.length_eq_one.mp hlen
  have hmem : r = 0 ∨ r = 1 := by
    refine roll_dice_mem 0 [((1, (1:ℚ)/25), (0, 1/50))]
      ((sample (keys [((1:Person), (1:ℚ)/25), (0, 1/50)]) 0).2) r ?_
    rw [hr]
    simp
  rw [hr]
  exact cex_round_any r hmem

theorem cex_before : totalWealth [(0, (-1499:ℚ)/100000), (1, 2251/50000)] = 3003/100000 := by
  norm_num [totalWealth, values]

/-- C2 counterexample: the two-agent mapping `{0: −0.01499, 1: 0.04502}` with
`win_percentage = 1`, `chi = 2001/4502 ≈ 0.444`, `zeta = 0`,
`kappa = 1000/3003 ≈ 0.333` is a valid initial state, yet one seeded round
moves the total from 0.03003 to 0.06 — a drift of 0.02997, exceeding the
claimed `0.01 × agent_count = 0.02` tolerance (tax rounding gains ≈ 0.01 and
the half-cent loan and repayment roundings both round up). -/
theorem C2_counterexample :
    ((keys [(0, (-1499:ℚ)/100000), (1, 2251/50000)]).Nodup ∧
      ([(0, (-1499:ℚ)/100000), (1, 2251/50000)] : WealthMap) ≠ [] ∧
      ([(0, (-1499:ℚ)/100000), (1, 2251/50000)] : WealthMap).length % 2 = 0) ∧
    ¬ (|totalWealth (perform_sale_seeded ⟨1, 2001/4502, 0, 1000/3003⟩
          ([(0, -1499/100000), (1, 2251/50000)], 0)).1
        - totalWealth [(0, (-1499:ℚ)/100000), (1, 2251/50000)]|
      ≤ 1/100 * ((([(0, (-1499:ℚ)/100000), (1, 2251/50000)] : WealthMap).length : ℚ))) := by
  refine ⟨⟨by decide, by simp, by decide⟩, ?_⟩
  rw [cex_total, cex_before]
  rw [show (3:ℚ)/50 - 3003/100000 = 2997/100000 by norm_num]
  rw [abs_of_pos (show (0:ℚ) < 2997/100000 by norm_num)]
  norm_num

/-! ### Lookup lemmas for the tax-phase characterisation -/

theorem lookup?_append_left (k : Person) : ∀ (l₁ l₂ : WealthMap), k ∈ keys l₁ →
    lookup? k (l₁ ++ l₂) = lookup? k l₁
  | [], _, h => by simp [keys] at h
  | pw :: rest, l₂, h => by
    by_cases hk : pw.1 = k
    · simp [lookup?, hk]
    · have hmem : k ∈ keys rest := by
        simp only [keys, List.map_cons, List.mem_cons] at h
        rcases h with h | h
        · exact absurd h.symm hk
        · exact h
      simp [lookup?, hk, lookup?_append_left k rest l₂ hmem]

theorem lookup?_append_right (k : Person) : ∀ (l₁ l₂ : WealthMap), k ∉ keys l₁ →
    lookup? k (l₁ ++ l₂) = lookup? k l₂
  | [], _, _ => rfl
  | pw :: rest, l₂, h => by
    have hk : pw.1 ≠ k := by
      intro hcon
      exact h (by simp [keys, hcon])
    have hmem : k ∉ keys rest := by
      intro hcon
      exact h (by simp [keys, List.mem_cons]; right; simpa [keys] using hcon)
    simp [lookup?, hk, lookup?_append_right k rest l₂ hmem]

theorem lookup?_map_val (k : Person) (g : ℚ → ℚ) : ∀ l : WealthMap,
    lookup? k (l.map (fun pw => (pw.1, g pw.2))) = (lookup? k l).map g
  | [] => rfl
  | pw :: rest => by
    by_cases hk : pw.1 = k
    · simp [lookup?, hk]
    · simp [lookup?, hk, lookup?_map_val k g rest]

theorem mem_nodup_lookup (k : Person) (v : ℚ) : ∀ l : WealthMap, (keys l).Nodup →
    (k, v) ∈ l → lookup? k l = some v
  | [], _, h => by simp at h
  | pw :: rest, hnd, h => by
    have hnotin : pw.1 ∉ keys rest := by
      have hh := hnd
      simp only [keys, List.map_cons, List.nodup_cons] at hh
      exact hh.1
    have hndrest : (keys rest).Nodup := by
      have hh := hnd
      simp only [keys, List.map_cons, List.nodup_cons] at hh
      exact hh.2
    rcases List.mem_cons.mp h with h | h
    · rw [← h]
      simp [lookup?]
    · have hk : pw.1 ≠ k := by
        intro hcon
        exact hnotin (hcon ▸ (by
          simp only [keys, List.mem_map]
          exact ⟨(k, v), h, rfl⟩))
      simp [lookup?, hk, mem_nodup_lookup k v rest hndrest h]

theorem nodup_keys_filter (p : Person × ℚ → Bool) (w : WealthMap)
    (hnd : (keys w).Nodup) : (keys (w.filter p)).Nodup := by
  have hsub : (keys (w.filter p)).Sublist (keys w) := (List.filter_sublist w).map Prod.fst
  exact hnd.sublist hsub

theorem value_unique (k : Person) (v v' : ℚ) (w : WealthMap) (hnd : (keys w).Nodup)
    (h1 : (k, v) ∈ w) (h2 : (k, v') ∈ w) : v = v' := by
  have e1 := mem_nodup_lookup k v w hnd h1
  have e2 := mem_nodup_lookup k v' w hnd h2
  rw [e1] at e2
  exact Option.some_inj.mp e2

/-! ### C3 — tax phase correctness -/

/-- C3: in the tax phase, agents strictly above the round average form `rich`
and the rest (including ties) form `poor`; the total tax `chi × sum(rich)` is
truncated down to the nearest 0.01; each poor agent's balance becomes its old
balance plus `tax / |poor|`, rounded to two decimals, and each rich agent's
balance becomes `balance − balance·chi`, rounded to two decimals, with an
empty side leaving that half untouched; the key set is preserved.  For
`{0: 50, 1: 150}` with `chi = 0.1` this gives agent 1 → 135.00 and
agent 0 → 65.00. -/
theorem C3_tax_phase (chi : ℚ) (w : WealthMap) (hnd : (keys w).Nodup) :
    ((keys (pay_tax chi (avgWealth w) w)).Perm (keys w))
    ∧ (∀ k v, (k, v) ∈ w →
        lookup? k (pay_tax chi (avgWealth w) w)
          = some (if avgWealth w < v
              then round2 (v - v * chi)
              else round2 (v + trunc2 (chi * (values (richOf (avgWealth w) w)).sum)
                / ((poorOf (avgWealth w) w).length : ℚ))))
    ∧ pay_tax (1/10) (avgWealth [(0, 50), (1, 150)]) [(0, (50:ℚ)), (1, 150)]
        = [(1, 135), (0, 65)] := by
  refine ⟨keys_pay_tax_perm chi (avgWealth w) w, ?_, ?_⟩
  · intro k v hkv
    have hndr : (keys (richOf (avgWealth w) w)).Nodup := nodup_keys_filter _ w hnd
    have hndp : (keys (poorOf (avgWealth w) w)).Nodup := nodup_keys_filter _ w hnd
    by_cases hrich : avgWealth w < v
    · have hkvr : (k, v) ∈ richOf (avgWealth w) w :=
        List.mem_filter.mpr ⟨hkv, by simp [hrich]⟩
      have hrpos : 0 < (richOf (avgWealth w) w).length :=
        List.length_pos.mpr (fun hnil => by simp [hnil] at hkvr)
      have hkin : k ∈ keys ((richOf (avgWealth w) w).map
          (fun pw => (pw.1, round2 (pw.2 - pw.2 * chi)))) := by
        rw [keys_mapSnd (fun pw => round2 (pw.2 - pw.2 * chi))]
        simp only [keys, List.mem_map]
        exact ⟨(k, v), hkvr, rfl⟩
      have hlmap := lookup?_map_val k (fun x => round2 (x - x * chi))
        (richOf (avgWealth w) w)
      simp only [pay_tax, if_pos hrpos]
      rw [lookup?_append_left k _ _ hkin, hlmap,
        mem_nodup_lookup k v _ hndr hkvr, if_pos hrich]
      rfl
    · have hkvp : (k, v) ∈ poorOf (avgWealth w) w :=
        List.mem_filter.mpr ⟨hkv, by simp [not_lt.mp hrich]⟩
      have hppos : 0 < (poorOf (avgWealth w) w).length :=
        List.length_pos.mpr (fun hnil => by simp [hnil] at hkvp)
      have hknotin : ∀ l2 : WealthMap, lookup? k ((if 0 < (richOf (avgWealth w) w).length
          then (richOf (avgWealth w) w).map (fun pw => (pw.1, round2 (pw.2 - pw.2 * chi)))
          else richOf (avgWealth w) w) ++ l2) = lookup? k l2 := by
        intro l2
        have hne : k ∉ keys (richOf (avgWealth w) w) := by
          intro hcon
          simp only [keys, List.mem_map] at hcon
          rcases hcon with ⟨pw, hpw, hpwk⟩
          have hmemw : pw ∈ w := List.mem_filter.mp hpw |>.1
          have hcond : avgWealth w < pw.2 := by
            have hc := List.mem_filter.mp hpw |>.2
            simpa using hc
          have hpair : (k, pw.2) ∈ w := by
            have : pw = (k, pw.2) := by
              rw [← hpwk]
            rw [← this]
            exact hmemw
          have := value_unique k v pw.2 w hnd hkv hpair
          rw [← this] at hcond
          exact hrich hcond
        by_cases hc : 0 < (richOf (avgWealth w) w).length
        · rw [if_pos hc]
          refine lookup?_append_right k _ l2 ?_
          rw [keys_mapSnd (fun pw => round2 (pw.2 - pw.2 * chi))]
          exact hne
        · rw [if_neg hc]
          exact lookup?_append_right k _ l2 hne
      simp only [pay_tax, if_pos hppos]
      rw [hknotin, lookup?_map_val k
        (fun x => round2 (x + trunc2 (chi * (values (richOf (avgWealth w) w)).sum)
          / ((poorOf (avgWealth w) w).length : ℚ))),
        mem_nodup_lookup k v _ hndp hkvp, if_neg hrich]
      rfl
  · have h135 : round2 (135 : ℚ) = 135 := by
      unfold round2 rhe
      norm_num
    have h65 : round2 (65 : ℚ) = 65 := by
      unfold round2 rhe
      norm_num
    have havg : avgWealth [(0, 50), (1, 150)] = 100 := by
      norm_num [avgWealth, totalWealth, values, nPeople]
    rw [havg]
    norm_num [pay_tax, richOf, poorOf, List.filter, trunc2, totalWealth, values]
    norm_num [show (150:ℚ) - 150 * (1/10) = 135 by norm_num,
      show (50:ℚ) + 15/100 * 100 / 1 = 65 by norm_num, h135, h65]

theorem C3_witness :
    (keys [(0, (50:ℚ)), (1, 150)]).Nodup ∧
      (((keys (pay_tax (1/10) (avgWealth [(0, (50:ℚ)), (1, 150)])
          [(0, (50:ℚ)), (1, 150)])).Perm (keys [(0, (50:ℚ)), (1, 150)]))
      ∧ (∀ k v, (k, v) ∈ ([(0, (50:ℚ)), (1, 150)] : WealthMap) →
          lookup? k (pay_tax (1/10) (avgWealth [(0, (50:ℚ)), (1, 150)])
            [(0, (50:ℚ)), (1, 150)])
            = some (if avgWealth [(0, (50:ℚ)), (1, 150)] < v
                then round2 (v - v * (1/10))
                else round2 (v + trunc2 ((1/10)
                    * (values (richOf (avgWealth [(0, (50:ℚ)), (1, 150)])
                      [(0, (50:ℚ)), (1, 150)])).sum)
                  / ((poorOf (avgWealth [(0, (50:ℚ)), (1, 150)])
                    [(0, (50:ℚ)), (1, 150)]).length : ℚ))))
      ∧ pay_tax (1/10) (avgWealth [(0, 50), (1, 150)]) [(0, (50:ℚ)), (1, 150)]
          = [(1, 135), (0, 65)]) :=
  ⟨by decide, C3_tax_phase (1/10) [(0, (50:ℚ)), (1, 150)] (by decide)⟩

/-! ### C8 — the Gini coefficient -/

theorem enumFrom_sum (g : ℕ → ℚ → ℚ) : ∀ (l : List ℚ) (k : ℕ),
    ((List.enumFrom k l).map (fun p => g p.1 p.2)).sum
      = (Finset.range l.length).sum (fun i => g (k + i) (l.getD i 0))
  | [], _ => by simp
  | x :: l, k => by
    rw [List.enumFrom_cons]
    simp only [List.map_cons, List.sum_cons]
    rw [enumFrom_sum g l (k + 1), List.length_cons, Finset.sum_range_succ']
    have h1 : ∀ i, g (k + (i + 1)) ((x :: l).getD (i + 1) 0) = g (k + 1 + i) (l.getD i 0) := by
      intro i
      rw [List.getD_cons_succ]
      congr 1
      omega
    rw [Finset.sum_congr rfl (fun i _ => h1 i)]
    simp only [List.getD_cons_zero, Nat.add_zero]
    exact (add_comm _ _)

theorem length_sort_wealth (w : WealthMap) : (sort_wealth w).length = w.length := by
  unfold sort_wealth values
  rw [List.length_insertionSort, List.length_map]

theorem sum_range_succ_linear : ∀ n : ℕ,
    (Finset.range n).sum (fun i => ((i : ℚ) + 1)) = (n : ℚ) * ((n : ℚ) + 1) / 2
  | 0 => by simp
  | n + 1 => by
    rw [Finset.sum_range_succ, sum_range_succ_linear n]
    push_cast
    ring

/-- C8 (amended): `calc_gini` always returns the rank-weighted Gini formula
`(2/n)·Σ((i+1)·yᵢ)/Σyᵢ − (n+1)/n` over the ascending-sorted balances, and on a
perfectly equal distribution with non-zero balances it is exactly 0.  (The
claimed failure on zero total wealth does not occur; see the counterexample.) -/
theorem C8_gini_formula (w : WealthMap) (hw : w ≠ []) :
    (calc_gini w = 2 / (w.length : ℚ)
        * ((Finset.range w.length).sum (fun i => ((i : ℚ) + 1) * (sort_wealth w).getD i 0))
        / (sort_wealth w).sum
      - ((w.length : ℚ) + 1) / (w.length : ℚ))
    ∧ (∀ v : ℚ, v ≠ 0 → (∀ x ∈ values w, x = v) → calc_gini w = 0) := by
  have hform : calc_gini w = 2 / (w.length : ℚ)
      * ((Finset.range w.length).sum (fun i => ((i : ℚ) + 1) * (sort_wealth w).getD i 0))
      / (sort_wealth w).sum
      - ((w.length : ℚ) + 1) / (w.length : ℚ) := by
    simp only [calc_gini]
    have henum : (sort_wealth w).enum = List.enumFrom 0 (sort_wealth w) := rfl
    rw [henum, enumFrom_sum (fun i y => ((i : ℚ) + 1) * y) (sort_wealth w) 0,
      length_sort_wealth]
    have hz : ∀ i : ℕ, (((0 + i : ℕ) : ℚ) + 1) * (sort_wealth w).getD i 0
        = ((i : ℚ) + 1) * (sort_wealth w).getD i 0 := by
      intro i
      rw [Nat.zero_add]
    rw [Finset.sum_congr rfl (fun i _ => hz i)]
    rfl
  refine ⟨hform, ?_⟩
  intro v hv hall
  have hn : w.length ≠ 0 := fun h => hw (List.length_eq_zero.mp h)
  have hnq : (w.length : ℚ) ≠ 0 := Nat.cast_ne_zero.mpr hn
  have hsort : sort_wealth w = List.replicate w.length v := by
    rw [List.eq_replicate_iff]
    constructor
    · exact length_sort_wealth w
    · intro b hb
      exact hall b ((List.perm_insertionSort _ _).mem_iff.mp hb)
  have hsum : (sort_wealth w).sum = (w.length : ℚ) * v := by
    rw [hsort, List.sum_replicate, nsmul_eq_mul]
  have hgetD : ∀ i ∈ Finset.range w.length,
      ((i : ℚ) + 1) * (sort_wealth w).getD i 0 = ((i : ℚ) + 1) * v := by
    intro i hi
    have hilt : i < w.length := Finset.mem_range.mp hi
    rw [hsort, List.getD_eq_getElem _ _ (by simpa using hilt), List.getElem_replicate]
  have hws : (Finset.range w.length).sum
      (fun i => ((i : ℚ) + 1) * (sort_wealth w).getD i 0)
      = (w.length : ℚ) * ((w.length : ℚ) + 1) / 2 * v := by
    rw [Finset.sum_congr rfl hgetD, ← Finset.sum_mul, sum_range_succ_linear]
  rw [hform, hws, hsum]
  field_simp
  ring

theorem C8_witness :
    ([(0, (5:ℚ)), (1, 5)] : WealthMap) ≠ [] ∧
      (calc_gini [(0, (5:ℚ)), (1, 5)] = 2 / ((([(0, (5:ℚ)), (1, 5)] : WealthMap).length : ℚ))
          * ((Finset.range ([(0, (5:ℚ)), (1, 5)] : WealthMap).length).sum
            (fun i => ((i : ℚ) + 1) * (sort_wealth [(0, (5:ℚ)), (1, 5)]).getD i 0))
          / (sort_wealth [(0, (5:ℚ)), (1, 5)]).sum
        - ((([(0, (5:ℚ)), (1, 5)] : WealthMap).length : ℚ) + 1)
          / ((([(0, (5:ℚ)), (1, 5)] : WealthMap).length : ℚ))
      ∧ (∀ v : ℚ, v ≠ 0 → (∀ x ∈ values [(0, (5:ℚ)), (1, 5)], x = v) →
          calc_gini [(0, (5:ℚ)), (1, 5)] = 0)) :=
  ⟨by simp, C8_gini_formula [(0, (5:ℚ)), (1, 5)] (by simp)⟩

/-- Modelled from the spec: the spec's contract for `gini_coefficient()` —
return the rank-weighted formula value, but fail (here `none`) when total
wealth is zero.  This is the refinement target the code is compared against. -/
def calcGiniSpec (w : WealthMap) : Option ℚ :=
  if (sort_wealth w).sum = 0 then none else some (calc_gini w)

/-- C8 counterexample: on the zero-total mapping `{0: −1, 1: 1}` the code does
not fail: the numpy float division by zero only warns and returns a non-finite
value, so `calc_gini` evaluates to a (meaningless) number — in the rational
model the division-by-zero convention yields `0 − (n+1)/n = −3/2` — while the
spec's contract demands a failure. -/
theorem C8_counterexample :
    totalWealth [(0, (-1:ℚ)), (1, 1)] = 0
    ∧ calc_gini [(0, (-1:ℚ)), (1, 1)] = -(3/2)
    ∧ calcGiniSpec [(0, (-1:ℚ)), (1, 1)] = none := by
  have hsort : sort_wealth [(0, (-1:ℚ)), (1, 1)] = [-1, 1] := by
    norm_num [sort_wealth, values, List.insertionSort, List.orderedInsert]
  refine ⟨by norm_num [totalWealth, values], ?_, ?_⟩
  · unfold calc_gini
    rw [hsort]
    norm_num [List.enum, List.enumFrom, nPeople]
  · unfold calcGiniSpec
    rw [hsort]
    norm_num

/-! ### C9 — Lorenz-curve shape -/

theorem cumsum_length : ∀ l : List ℚ, (cumsum l).length = l.length
  | [] => rfl
  | x :: l => by
    simp [cumsum, cumsum_length l]

theorem getLast?_cons_ne_q (a : ℚ) : ∀ l : List ℚ, l ≠ [] →
    (a :: l).getLast? = l.getLast?
  | [], h => absurd rfl h
  | _ :: _, _ => List.getLast?_cons_cons

theorem cumsum_getLast? : ∀ l : List ℚ, l ≠ [] → (cumsum l).getLast? = some l.sum
  | [], h => absurd rfl h
  | [x], _ => by simp [cumsum]
  | x :: y :: t, _ => by
    have IH := cumsum_getLast? (y :: t) (by simp)
    have hne : (cumsum (y :: t)).map (fun c => x + c) ≠ [] := by
      have hl : ((cumsum (y :: t)).map (fun c => x + c)).length = t.length + 1 := by
        rw [List.length_map, cumsum_length]
        rfl
      intro hcon
      rw [hcon] at hl
      simp at hl
    show (x :: (cumsum (y :: t)).map (fun c => x + c)).getLast? = _
    rw [getLast?_cons_ne_q x _ hne, List.getLast?_map, IH]
    simp

theorem getLast?_enumFrom {α : Type} : ∀ (l : List α) (k : ℕ),
    (List.enumFrom k l).getLast? = l.getLast?.map (fun a => (k + l.length - 1, a))
  | [], _ => rfl
  | [x], k => by simp [List.enumFrom]
  | x :: y :: t, k => by
    rw [List.enumFrom_cons, show List.enumFrom (k + 1) (y :: t)
        = (k + 1, y) :: List.enumFrom (k + 2) t from by rw [List.enumFrom_cons],
      List.getLast?_cons_cons, ← List.enumFrom_cons, getLast?_enumFrom (y :: t) (k + 1),
      show (x :: y :: t).getLast? = (y :: t).getLast? from List.getLast?_cons_cons]
    have harith : k + 1 + (y :: t).length - 1 = k + (x :: y :: t).length - 1 := by
      simp only [List.length_cons]
      omega
    rw [harith]

theorem chain_shift_cumsum : ∀ (l : List ℚ) (c : ℚ), (∀ x ∈ l, 0 ≤ x) →
    List.Chain' (· ≤ ·) (c :: (cumsum l).map (fun z => c + z))
  | [], c, _ => by simp [cumsum]
  | x :: l, c, h => by
    have hx : 0 ≤ x := h x (by simp)
    have IH := chain_shift_cumsum l (c + x) (fun z hz => h z (List.mem_cons_of_mem _ hz))
    have hmm : (cumsum (x :: l)).map (fun z => c + z)
        = (c + x) :: (cumsum l).map (fun z => (c + x) + z) := by
      simp only [cumsum, List.map_cons, List.map_map]
      congr 1
      refine List.map_congr_left ?_
      intro z _
      simp only [Function.comp_apply]
      ring
    rw [hmm]
    rw [List.chain'_cons]
    exact ⟨by linarith, IH⟩

theorem chain_cumsum (l : List ℚ) (h : ∀ x ∈ l, 0 ≤ x) :
    List.Chain' (· ≤ ·) (0 :: cumsum l) := by
  have h0 := chain_shift_cumsum l 0 h
  have hid : (cumsum l).map (fun z => 0 + z) = cumsum l :=
    List.map_id'' (fun z => zero_add z) (cumsum l)
  rw [hid] at h0
  exact h0

theorem lorenz_snd (w : WealthMap) : (lorenz_points w).map Prod.snd
    = (0 : ℚ) :: (cumsum (sort_wealth w)).map (fun c => c / (sort_wealth w).sum) := by
  simp only [lorenz_points, List.map_map]
  have hcomp : (Prod.snd ∘ fun p : ℕ × ℚ =>
      (((p.1 : ℚ) / ((((0 : ℚ) :: (cumsum (sort_wealth w)).map
        (fun c => c / (sort_wealth w).sum)).length : ℚ) - 1), p.2))) = Prod.snd := by
    funext p
    rfl
  rw [hcomp]
  exact List.enum_map_snd _

theorem sum_sort_wealth (w : WealthMap) : (sort_wealth w).sum = totalWealth w :=
  (List.perm_insertionSort _ _).sum_eq

/-- C9 (amended): for every non-empty wealth mapping with non-zero total
wealth, the computed Lorenz coordinates start at `(0, 0)` and end at `(1, 1)`;
the y-coordinates are non-decreasing provided all balances are non-negative
(with a negative balance the first cumulative share dips below zero; see the
counterexample). -/
theorem C9_lorenz_shape (w : WealthMap) (hw : w ≠ []) (ht : totalWealth w ≠ 0) :
    (lorenz_points w).head? = some (0, 0)
    ∧ (lorenz_points w).getLast? = some (1, 1)
    ∧ ((∀ x ∈ values w, 0 ≤ x) →
        List.Chain' (· ≤ ·) ((lorenz_points w).map Prod.snd)) := by
  have hsne : sort_wealth w ≠ [] := by
    intro hcon
    have hl := length_sort_wealth w
    rw [hcon] at hl
    exact hw (List.length_eq_zero.mp hl.symm)
  have hcne : cumsum (sort_wealth w) ≠ [] := by
    intro hcon
    have hl := cumsum_length (sort_wealth w)
    rw [hcon] at hl
    exact hsne (List.length_eq_zero.mp hl.symm)
  have hmapne : (cumsum (sort_wealth w)).map (fun c => c / (sort_wealth w).sum) ≠ [] := by
    intro hcon
    exact hcne (List.map_eq_nil.mp hcon)
  have hsum : (sort_wealth w).sum = totalWealth w := sum_sort_wealth w
  have hyslen : ((0 : ℚ) :: (cumsum (sort_wealth w)).map
      (fun c => c / (sort_wealth w).sum)).length = w.length + 1 := by
    simp only [List.length_cons, List.length_map, cumsum_length, length_sort_wealth]
  refine ⟨?_, ?_, ?_⟩
  · simp only [lorenz_points, List.enum_cons, List.map_cons, List.head?_cons]
    norm_num
  · simp only [lorenz_points]
    rw [show ((0 : ℚ) :: (cumsum (sort_wealth w)).map
        (fun c => c / (sort_wealth w).sum)).enum
      = List.enumFrom 0 ((0 : ℚ) :: (cumsum (sort_wealth w)).map
        (fun c => c / (sort_wealth w).sum)) from rfl]
    rw [List.getLast?_map, getLast?_enumFrom, getLast?_cons_ne_q _ _ hmapne,
      List.getLast?_map, cumsum_getLast? _ hsne]
    simp only [Option.map_some']
    have hn0 : (w.length : ℚ) ≠ 0 := by
      have hn : w.length ≠ 0 := fun h => hw (List.length_eq_zero.mp h)
      exact_mod_cast hn
    rw [hyslen]
    have hx : ((0 + (w.length + 1) - 1 : ℕ) : ℚ) / (((w.length + 1 : ℕ) : ℚ) - 1) = 1 := by
      rw [show (0 + (w.length + 1) - 1 : ℕ) = w.length from by omega]
      push_cast
      rw [show (w.length : ℚ) + 1 - 1 = (w.length : ℚ) from by ring]
      exact div_self hn0
    have hy : (sort_wealth w).sum / (sort_wealth w).sum = 1 := by
      rw [hsum]
      exact div_self ht
    rw [hx, hy]
  · intro hnn
    rw [lorenz_snd]
    have hps : (sort_wealth w).Perm (values w) := List.perm_insertionSort (· ≤ ·) (values w)
    have hpos : 0 < (sort_wealth w).sum := by
      rcases lt_or_eq_of_le (List.sum_nonneg (fun x hx => hnn x (hps.mem_iff.mp hx)))
        with h | h
      · exact h
      · exact absurd (hsum ▸ h.symm) ht
    have hchain := chain_cumsum (sort_wealth w) (fun x hx => hnn x (hps.mem_iff.mp hx))
    have hmapchain : List.Chain' (fun a b : ℚ => a / (sort_wealth w).sum
        ≤ b / (sort_wealth w).sum) (0 :: cumsum (sort_wealth w)) :=
      hchain.imp (fun a b hab => div_le_div_of_nonneg_right hab hpos.le)
    have hmap := List.chain'_map (fun c : ℚ => c / (sort_wealth w).sum)
      |>.mpr hmapchain
    rw [List.map_cons] at hmap
    rw [show (0 : ℚ) / (sort_wealth w).sum = 0 from zero_div _] at hmap
    exact hmap

theorem C9_witness :
    (([(0, (1:ℚ)), (1, 3)] : WealthMap) ≠ [] ∧ totalWealth [(0, (1:ℚ)), (1, 3)] ≠ 0) ∧
      ((lorenz_points [(0, (1:ℚ)), (1, 3)]).head? = some (0, 0)
      ∧ (lorenz_points [(0, (1:ℚ)), (1, 3)]).getLast? = some (1, 1)
      ∧ ((∀ x ∈ values [(0, (1:ℚ)), (1, 3)], 0 ≤ x) →
          List.Chain' (· ≤ ·) ((lorenz_points [(0, (1:ℚ)), (1, 3)]).map Prod.snd))) :=
  ⟨⟨by simp, by norm_num [totalWealth, values]⟩,
    C9_lorenz_shape [(0, (1:ℚ)), (1, 3)] (by simp) (by norm_num [totalWealth, values])⟩

/-- C9 counterexample: with the signed balances `{0: −1, 1: 3}` (total 2 ≠ 0)
the y-coordinates are `[0, −1/2, 1]`, which are not non-decreasing: claims of
monotonicity fail as soon as a balance is negative, which the data model
explicitly allows. -/
theorem C9_counterexample :
    totalWealth [(0, (-1:ℚ)), (1, 3)] ≠ 0
    ∧ ¬ List.Chain' (· ≤ ·) ((lorenz_points [(0, (-1:ℚ)), (1, 3)]).map Prod.snd) := by
  constructor
  · norm_num [totalWealth, values]
  · have hsort : sort_wealth [(0, (-1:ℚ)), (1, 3)] = [-1, 3] := by
      norm_num [sort_wealth, values, List.insertionSort, List.orderedInsert]
    have hpts : (lorenz_points [(0, (-1:ℚ)), (1, 3)]).map Prod.snd = [0, -1/2, 1] := by
      rw [lorenz_snd, hsort]
      norm_num [cumsum]
    rw [hpts]
    intro hchain
    rw [List.chain'_cons] at hchain
    have h1 := hchain.1
    norm_num at h1

end YardSale
